/-
Verification of the undou mutable-draft / patch-tracking engine
(src/unnamed/part_002: the undou, patchState, forkState, isUndou API over an
immer Snapshot/Draft pair).

The value model is a JSON-like tree with objects as sorted association lists.
The immer primitives the engine trusts (structural diff at finishDraft,
applyPatches, produce replacement patches) are not part of the repository;
they are modelled from the specification (spec 4.2, 6) and each such
definition is marked `Modelled from the spec:` in its doc comment. Everything
else is translated directly from the source: the engine closure state, the
proxy traps, commit, the default deferred scheduler, the root value setter,
patchState and forkState, and the per-container wrapper cache of the get trap.
-/
import Mathlib

/-- A JSON-like immutable tree value: the Snapshot/Draft data model of the engine
(scalars, string-keyed objects, integer-indexed arrays). Objects are association
lists kept in strictly sorted key order (see wf) so that structural equality of
Lean values coincides with structural equality of the modelled JS values. -/
inductive Value where
  | str : String → Value
  | int : Int → Value
  | bool : Bool → Value
  | null : Value
  | obj : List (String × Value) → Value
  | arr : List Value → Value
deriving Repr

mutual

def Value.beq : Value → Value → Bool
  | .str a, .str b => a == b
  | .int a, .int b => a == b
  | .bool a, .bool b => a == b
  | .null, .null => true
  | .obj a, .obj b => beqEntries a b
  | .arr a, .arr b => beqElems a b
  | _, _ => false

def beqEntries : List (String × Value) → List (String × Value) → Bool
  | [], [] => true
  | (k1, v1) :: t1, (k2, v2) :: t2 => k1 == k2 && Value.beq v1 v2 && beqEntries t1 t2
  | _, _ => false

def beqElems : List Value → List Value → Bool
  | [], [] => true
  | v1 :: t1, v2 :: t2 => Value.beq v1 v2 && beqElems t1 t2
  | _, _ => false

end

/-- Decidable equality for Value, via the Boolean structural comparison. -/
instance : DecidableEq Value := fun a b =>
  decidable_of_iff (Value.beq a b = true) (by
    revert a b
    apply Value.beq.induct (fun a b => (Value.beq a b = true) ↔ a = b)
      (fun a b => (beqElems a b = true) ↔ a = b)
      (fun a b => (beqEntries a b = true) ↔ a = b) <;>
        intros <;> try simp_all [Value.beq, beqEntries, beqElems]
    case case7 t x h1 h2 h3 h4 h5 h6 =>
      intro he
      subst he
      cases t with
      | str s => exact h1 s s rfl rfl
      | int n => exact h2 n n rfl rfl
      | bool b => cases b <;> simp_all
      | null => exact h4 rfl rfl
      | obj m => exact h5 m m rfl rfl
      | arr a => exact h6 a a rfl rfl
    case case10 t x h1 h2 =>
      intro he
      subst he
      cases t with
      | nil => exact h1 rfl rfl
      | cons hd tl =>
        obtain ⟨k, v⟩ := hd
        exact h2 k v tl k v tl rfl rfl
    case case13 t x h1 h2 =>
      intro he
      subst he
      cases t with
      | nil => exact h1 rfl rfl
      | cons hd tl => exact h2 hd tl hd tl rfl rfl)

/-- One step of a patch path: a string key into an object or an index into an array. -/
inductive PKey where
  | str : String → PKey
  | idx : Nat → PKey
deriving DecidableEq, Repr

/-- Patch operation, the add | replace | remove subset of JSON Patch used by immer. -/
inductive POp where
  | add | replace | remove
deriving DecidableEq, Repr

/-- A patch record: op, path from the root, and an optional value
(value = none encodes the undefined/absent sentinel, and is absent for remove). -/
structure Patch where
  op : POp
  path : List PKey
  value : Option Value
deriving DecidableEq, Repr

/-- Key lookup in an object association list. -/
def lookupKey : List (String × Value) → String → Option Value
  | [], _ => none
  | (k', v') :: t, k => if k = k' then some v' else lookupKey t k

/-- Upsert into a sorted object association list: replace an existing binding in
place, or insert a new binding at its sorted position. -/
def setKey : List (String × Value) → String → Value → List (String × Value)
  | [], k, w => [(k, w)]
  | (k', v') :: t, k, w =>
    if k = k' then (k, w) :: t
    else if k < k' then (k, w) :: (k', v') :: t
    else (k', v') :: setKey t k w

/-- Delete a key from an object association list. -/
def removeKey : List (String × Value) → String → List (String × Value)
  | [], _ => []
  | (k', v') :: t, k => if k = k' then t else (k', v') :: removeKey t k

/-- Insert an element at an index of an array (clamping at the end). -/
def insertAt : List Value → Nat → Value → List Value
  | l, 0, w => w :: l
  | [], _ + 1, w => [w]
  | x :: t, n + 1, w => x :: insertAt t n w

/-- Modelled from the spec: the final step of the external structural-apply
primitive (spec 6) applying one op at key k of container v; immer applyPatches is
not under src. Objects: add/replace upsert, remove deletes; arrays: replace sets
in bounds, add inserts, remove erases. -/
def applyTerminal (v : Value) (k : PKey) (op : POp) (val : Option Value) : Option Value :=
  match v, k with
  | .obj m, .str s =>
    match op with
    | .remove => some (.obj (removeKey m s))
    | _ => val.map fun w => .obj (setKey m s w)
  | .arr a, .idx i =>
    match op with
    | .replace => if i < a.length then val.map fun w => .arr (a.set i w) else none
    | .add => if i ≤ a.length then val.map fun w => .arr (insertAt a i w) else none
    | .remove => if i < a.length then some (.arr (a.eraseIdx i)) else none
  | _, _ => none

/-- Modelled from the spec: path navigation of the structural-apply primitive
(spec 6). Walks the nonempty path to the patch location and rebuilds the spine. -/
def applyAt : Value → List PKey → POp → Option Value → Option Value
  | v, [k], op, val => applyTerminal v k op val
  | .obj m, .str s :: k' :: rest, op, val => do
    let child ← lookupKey m s
    let child' ← applyAt child (k' :: rest) op val
    pure (.obj (setKey m s child'))
  | .arr a, .idx i :: k' :: rest, op, val => do
    let child ← a[i]?
    let child' ← applyAt child (k' :: rest) op val
    pure (.arr (a.set i child'))
  | _, _, _, _ => none

/-- Modelled from the spec: apply one patch to a present value; a path-[] patch
replaces the whole value (and must carry a value). -/
def applyPatchV (v : Value) (p : Patch) : Option Value :=
  match p.path with
  | [] =>
    match p.op, p.value with
    | .replace, some w => some w
    | .add, some w => some w
    | _, _ => none
  | _ :: _ => applyAt v p.path p.op p.value

/-- Modelled from the spec: sequential batch application of a patch list to a
value, failing as a whole if any patch fails (spec 6, 7). -/
def applyPatchesV (v : Value) (l : List Patch) : Option Value :=
  l.foldlM applyPatchV v

/-- Strict sortedness of a key list: every key is below all later keys. -/
def sortedStrs : List String → Bool
  | [] => true
  | k :: t => t.all (fun k' => decide (k < k')) && sortedStrs t

/-- Sortedness of an object association list, as a property of its key list. -/
def sortedKeys (m : List (String × Value)) : Bool := sortedStrs (m.map Prod.fst)

mutual

def wf : Value → Bool
  | .obj m => sortedKeys m && wfEntries m
  | .arr a => wfElems a
  | _ => true

def wfEntries : List (String × Value) → Bool
  | [] => true
  | (_, v) :: t => wf v && wfEntries t

def wfElems : List Value → Bool
  | [] => true
  | v :: t => wf v && wfElems t

end

/-- Prefix a patch path with one key, used when a sub-diff is lifted to the parent. -/
def consPath (k : PKey) (p : Patch) : Patch :=
  { p with path := k :: p.path }

/-- Argument of the structural diff walk: a pair of values, of object entry
lists, or of array tails together with the absolute index of their first element. -/
inductive DiffArg where
  | vals : Value → Value → DiffArg
  | objs : List (String × Value) → List (String × Value) → DiffArg
  | arrs : Nat → List Value → List Value → DiffArg

/-- Modelled from the spec: the external structural-diff primitive
diff(before, after) -> (patches, inversePatches) that immer finishDraft uses to
emit a commit patch pair (spec 4.2, 6; immer is not under src). Objects are
merge-walked per key in sorted order, recursing into common keys; arrays are
walked positionally with add/remove/replace; any other divergence is a single
path-[] replace pair. -/
def diffGo : DiffArg → List Patch × List Patch
  | .vals (.obj m0) (.obj m1) => diffGo (.objs m0 m1)
  | .vals (.arr a0) (.arr a1) => diffGo (.arrs 0 a0 a1)
  | .vals v0 v1 =>
    if v0 = v1 then ([], [])
    else ([⟨.replace, [], some v1⟩], [⟨.replace, [], some v0⟩])
  | .objs [] [] => ([], [])
  | .objs [] ((k1, v1) :: t1) =>
    let (f, i) := diffGo (.objs [] t1)
    (⟨.add, [.str k1], some v1⟩ :: f, ⟨.remove, [.str k1], none⟩ :: i)
  | .objs ((k0, v0) :: t0) [] =>
    let (f, i) := diffGo (.objs t0 [])
    (⟨.remove, [.str k0], none⟩ :: f, ⟨.add, [.str k0], some v0⟩ :: i)
  | .objs ((k0, v0) :: t0) ((k1, v1) :: t1) =>
    if k0 = k1 then
      let (fv, iv) := diffGo (.vals v0 v1)
      let (f, i) := diffGo (.objs t0 t1)
      (fv.map (consPath (.str k0)) ++ f, iv.map (consPath (.str k0)) ++ i)
    else if k0 < k1 then
      let (f, i) := diffGo (.objs t0 ((k1, v1) :: t1))
      (⟨.remove, [.str k0], none⟩ :: f, ⟨.add, [.str k0], some v0⟩ :: i)
    else
      let (f, i) := diffGo (.objs ((k0, v0) :: t0) t1)
      (⟨.add, [.str k1], some v1⟩ :: f, ⟨.remove, [.str k1], none⟩ :: i)
  | .arrs _ [] [] => ([], [])
  | .arrs n [] (y :: t1) =>
    let (f, i) := diffGo (.arrs (n + 1) [] t1)
    (⟨.add, [.idx n], some y⟩ :: f, i ++ [⟨.remove, [.idx n], none⟩])
  | .arrs n (x :: t0) [] =>
    let (f, i) := diffGo (.arrs (n + 1) t0 [])
    (f ++ [⟨.remove, [.idx n], none⟩], ⟨.add, [.idx n], some x⟩ :: i)
  | .arrs n (x :: t0) (y :: t1) =>
    if x = y then diffGo (.arrs (n + 1) t0 t1)
    else
      let (f, i) := diffGo (.arrs (n + 1) t0 t1)
      (⟨.replace, [.idx n], some y⟩ :: f, i ++ [⟨.replace, [.idx n], some x⟩])
termination_by a =>
  match a with
  | .vals v0 v1 => sizeOf v0 + sizeOf v1
  | .objs m0 m1 => sizeOf m0 + sizeOf m1
  | .arrs _ a0 a1 => sizeOf a0 + sizeOf a1
decreasing_by all_goals simp <;> omega

/-- Modelled from the spec: diff of two values, the commit-time patch emitter. -/
def diffV (v0 v1 : Value) : List Patch × List Patch := diffGo (.vals v0 v1)

/-- A patch at the root path is a replace (the shape the diff emits at path []). -/
def rootOkP (p : Patch) : Prop := p.path = [] → p.op = POp.replace

/-- Round-trip motive for the diff walk: forward patches rebuild the target,
inverse patches rebuild the source, in each of the three walk modes. -/
def RT : DiffArg → Prop
  | .vals v0 v1 => wf v0 = true → wf v1 = true →
      applyPatchesV v0 (diffGo (.vals v0 v1)).1 = some v1 ∧
      applyPatchesV v1 (diffGo (.vals v0 v1)).2 = some v0
  | .objs m0 m1 => ∀ c : List (String × Value),
      sortedKeys (c ++ m0) = true → sortedKeys (c ++ m1) = true →
      wfEntries m0 = true → wfEntries m1 = true →
      applyPatchesV (.obj (c ++ m0)) (diffGo (.objs m0 m1)).1 = some (.obj (c ++ m1)) ∧
      applyPatchesV (.obj (c ++ m1)) (diffGo (.objs m0 m1)).2 = some (.obj (c ++ m0))
  | .arrs n a0 a1 => ∀ c : List Value, c.length = n →
      applyPatchesV (.arr (c ++ a0)) (diffGo (.arrs n a0 a1)).1 = some (.arr (c ++ a1)) ∧
      applyPatchesV (.arr (c ++ a1)) (diffGo (.arrs n a0 a1)).2 = some (.arr (c ++ a0))

/-- Diagonal motive: diffing a value against itself yields empty patch lists. -/
def DS : DiffArg → Prop
  | .vals v0 v1 => v0 = v1 → diffGo (.vals v0 v1) = ([], [])
  | .objs m0 m1 => m0 = m1 → diffGo (.objs m0 m1) = ([], [])
  | .arrs n a0 a1 => a0 = a1 → diffGo (.arrs n a0 a1) = ([], [])

/-- The forward and inverse patch lists of one diff have equal length. -/
def LEN : DiffArg → Prop := fun a => (diffGo a).1.length = (diffGo a).2.length

/-- Every patch the diff emits satisfies rootOkP. -/
def ROOTOK : DiffArg → Prop := fun a =>
  (∀ p ∈ (diffGo a).1, rootOkP p) ∧ (∀ p ∈ (diffGo a).2, rootOkP p)

/-- The mutable closure state of one undou engine (src/unnamed/part_002, lines
35-102): source is the Snapshot (none = undefined), draft the immer draft if
live, draftCacheKey the generation tag, pendingCount the number of scheduled
deferred commits (pendingPromise), isDirty the dirty flag, and proxValid whether
proxiedValue is not INVALID. -/
structure Engine where
  source : Option Value
  draft : Option Value
  draftCacheKey : Nat
  pendingCount : Nat
  isDirty : Bool
  proxValid : Bool
deriving Repr, DecidableEq

/-- undou(source) (line 35): fresh engine over a snapshot; clean, no draft, no
pending commit, generation 0, proxy not yet built. -/
def undou (source : Option Value) : Engine :=
  { source := source, draft := none, draftCacheKey := 0, pendingCount := 0,
    isDirty := false, proxValid := false }

/-- isObject(source) (lines 302-304) restricted to the value model: drafts are
created only for objects and arrays. -/
def isObjectish : Option Value → Bool
  | some (.obj _) => true
  | some (.arr _) => true
  | _ => false

/-- The default deferred micro-batch scheduler (lines 55-66): if a pending
promise exists do nothing, else schedule exactly one deferred commit. -/
def schedulerDefault (e : Engine) : Engine :=
  if e.pendingCount ≠ 0 then e else { e with pendingCount := e.pendingCount + 1 }

/-- dye (lines 144-147): mark dirty and notify the scheduler. -/
def dye (e : Engine) : Engine := schedulerDefault { e with isDirty := true }

/-- setSource (lines 126-130): install a new snapshot, drop the draft, and bump
the generation tag (clearDraftCache). -/
def setSource (e : Engine) (v : Option Value) : Engine :=
  { e with source := v, draft := none, draftCacheKey := e.draftCacheKey + 1 }

/-- clearDraftCache (lines 132-134): bump the generation tag. -/
def clearDraftCache (e : Engine) : Engine := { e with draftCacheKey := e.draftCacheKey + 1 }

/-- One invocation of the registered patch listener: the forward and inverse
patch lists it receives. -/
structure Emit where
  patches : List Patch
  inversePatches : List Patch
deriving Repr, DecidableEq

/-- The patch pair finishDraft generates for a commit: the structural diff of
the snapshot against the draft (spec 4.2). -/
def commitDiff (e : Engine) : List Patch × List Patch :=
  match e.source, e.draft with
  | some s, some d => diffV s d
  | _, _ => ([], [])

/-- commit (lines 136-142) with a normally-returning listener: no-op unless
dirty with a live draft; otherwise the draft becomes the snapshot, the draft is
dropped, the generation tag is bumped twice (setSource and the explicit
clearDraftCache), the dirty flag clears, and the suppression wrapper (lines
46-53) forwards the patch pair to the listener only when it is non-empty. -/
def commitE (e : Engine) : Engine × List Emit :=
  match e.draft with
  | none => (e, [])
  | some d =>
    if e.isDirty then
      let pr := commitDiff e
      let ev : List Emit := if pr.1 = [] ∧ pr.2 = [] then [] else [⟨pr.1, pr.2⟩]
      ({ clearDraftCache (setSource e (some d)) with isDirty := false }, ev)
    else (e, [])

/-- Outcome of a commit under an explicit listener-behaviour model: noop,
completed (with the optional listener call), or raised, carrying the engine
state at the moment the listener exception escapes commit(). -/
inductive CommitOutcome where
  | noop : Engine → CommitOutcome
  | completed : Engine → Option Emit → CommitOutcome
  | raised : Engine → Emit → CommitOutcome
deriving Repr, DecidableEq

/-- commit (lines 136-142) with the listener invocation point made explicit:
the body is setSource(finishDraft(draft, patchListener)), and immer finishDraft
invokes the patch listener synchronously before returning, so the listener runs
before setSource, clearDraftCache and the isDirty reset execute. If the listener
throws, the exception propagates out of commit() with none of those updates
applied: the engine is returned unchanged. -/
def commitWith (e : Engine) (listenerThrows : Bool) : CommitOutcome :=
  match e.draft with
  | none => .noop e
  | some d =>
    if e.isDirty then
      let pr := commitDiff e
      if pr.1 = [] ∧ pr.2 = [] then
        .completed { clearDraftCache (setSource e (some d)) with isDirty := false } none
      else if listenerThrows then
        .raised e ⟨pr.1, pr.2⟩
      else
        .completed { clearDraftCache (setSource e (some d)) with isDirty := false }
          (some ⟨pr.1, pr.2⟩)
    else .noop e

/-- The root value setter (lines 93-99): invalidates the cached root proxy,
replaces the snapshot wholesale via produce, and clears the dirty flag.
Modelled from the spec: immer produce with a value-returning recipe always emits
a single path-[] replace pair, forward carrying the new root and inverse the
prior root (spec 4.2, root replacement). -/
def setValueE (e : Engine) (newVal : Option Value) : Engine × List Emit :=
  let em : Emit := ⟨[⟨.replace, [], newVal⟩], [⟨.replace, [], e.source⟩]⟩
  ({ setSource { e with proxValid := false } newVal with isDirty := false }, [em])

/-- The STATE_SOURCE setter (lines 73-76): invalidate the root proxy and
install a snapshot silently (no listener, dirty flag untouched). -/
def setStateSource (e : Engine) (v : Option Value) : Engine :=
  setSource { e with proxValid := false } v

/-- Modelled from the spec: one step of the external applyPatches primitive at
the engine level, where the state may be the undefined sentinel; a path-[]
replace installs the patch value as the whole state (spec 6). -/
def applyPatchTop (s : Option Value) (p : Patch) : Option (Option Value) :=
  match p.path with
  | [] =>
    match p.op with
    | .replace => some p.value
    | _ => none
  | _ :: _ =>
    match s with
    | some v => (applyPatchV v p).map some
    | none => none

/-- Modelled from the spec: immer applyPatches over an optional (possibly
undefined) root, all-or-nothing (spec 6, 7). -/
def applyPatches (s : Option Value) (l : List Patch) : Option (Option Value) :=
  l.foldlM applyPatchTop s

/-- patchState (lines 271-276): force a commit, apply the forward patches to
the committed snapshot, and install the result through the STATE_SOURCE setter;
none when patch application fails. -/
def patchState (e : Engine) (ps : List Patch) : Option (Engine × List Emit) :=
  let pr := commitE e
  (applyPatches pr.1.source ps).map fun s' => (setStateSource pr.1 s', pr.2)

/-- forkState (lines 285-289): force a commit, then build a brand-new engine
over the committed snapshot. -/
def forkState (e : Engine) : (Engine × List Emit) × Engine :=
  let pr := commitE e
  (pr, undou pr.1.source)

/-- The root subDraft closure (lines 112-119): recreate the draft from the
current source when it is missing. -/
def subDraftE (e : Engine) : Engine :=
  if e.draft = none ∧ isObjectish e.source then { e with draft := e.source } else e

/-- The value getter (lines 86-92) with initProxy (lines 104-124): when the
cached root proxy is invalid, build it, creating a fresh draft for objectish
sources. -/
def readValueE (e : Engine) : Engine :=
  if e.proxValid then e
  else if isObjectish e.source then { e with draft := e.source, proxValid := true }
  else { e with proxValid := true }

/-- The state a caller observes through .value: the live draft content for
objectish snapshots, the bare snapshot otherwise. -/
def currentView (e : Engine) : Option Value :=
  if isObjectish e.source then (subDraftE e).draft else e.source

/-- Reflect.set on a draft container: object upsert, or array index write
(in-bounds set or append at the length). -/
def reflectSet (v : Value) (k : PKey) (w : Value) : Option Value :=
  match v, k with
  | .obj m, .str s => some (.obj (setKey m s w))
  | .arr a, .idx i =>
    if i < a.length then some (.arr (a.set i w))
    else if i = a.length then some (.arr (a ++ [w]))
    else none
  | _, _ => none

/-- Reflect.deleteProperty on a draft object (array holes are not modelled). -/
def reflectDelete (v : Value) (k : PKey) : Option Value :=
  match v, k with
  | .obj m, .str s => some (.obj (removeKey m s))
  | _, _ => none

/-- Apply a container-level mutation at a path inside the draft. -/
def updAtPath (v : Value) (p : List PKey) (f : Value → Option Value) : Option Value :=
  match p with
  | [] => f v
  | .str s :: rest =>
    match v with
    | .obj m =>
      (lookupKey m s).bind fun child =>
        (updAtPath child rest f).map fun child' => .obj (setKey m s child')
    | _ => none
  | .idx i :: rest =>
    match v with
    | .arr a =>
      a[i]?.bind fun child =>
        (updAtPath child rest f).map fun child' => .arr (a.set i child')
    | _ => none

/-- Run a draft mutation; a failing Reflect operation leaves the draft as it
was (the trap still dyes, as in the code). -/
def writeDraft (e : Engine) (g : Value → Option Value) (p : List PKey) : Engine :=
  match e.draft with
  | some d =>
    match updAtPath d p g with
    | some d' => { e with draft := some d' }
    | none => e
  | none => e

/-- Engine effect of the set trap (lines 205-214): write through subDraft, then dye. -/
def setTrapE (e : Engine) (p : List PKey) (k : PKey) (w : Value) : Engine :=
  dye (writeDraft (subDraftE e) (fun c => reflectSet c k w) p)

/-- Engine effect of the deleteProperty trap (lines 216-222). -/
def deleteTrapE (e : Engine) (p : List PKey) (k : PKey) : Engine :=
  dye (writeDraft (subDraftE e) (fun c => reflectDelete c k) p)

/-- Engine effect of the defineProperty trap (lines 256-262), modelled as a write. -/
def definePropTrapE (e : Engine) (p : List PKey) (k : PKey) (w : Value) : Engine :=
  dye (writeDraft (subDraftE e) (fun c => reflectSet c k w) p)

/-- Engine effect of setPrototypeOf (lines 236-240) and preventExtensions
(lines 246-250): prototypes and extensibility are outside the value model, so
only the dye side effect remains. -/
def dyeOnlyTrapE (e : Engine) : Engine :=
  dye (subDraftE e)

/-- The externally observable operations on one engine: reads (the value getter
and the read-only traps has / ownKeys / getOwnPropertyDescriptor /
getPrototypeOf / isExtensible, whose engine effect is subDraft), the five
mutating traps, explicit commit, the scheduled microtask firing, root value
assignment, and patchState. -/
inductive EngOp where
  | readValue
  | readTrap
  | write (p : List PKey) (k : PKey) (w : Value)
  | del (p : List PKey) (k : PKey)
  | defineProp (p : List PKey) (k : PKey) (w : Value)
  | setProto
  | preventExt
  | commitOp
  | fire
  | setValue (v : Option Value)
  | applyPatchesOp (ps : List Patch)
deriving Repr, DecidableEq

/-- The five mutating proxy traps. -/
def isMutTrap : EngOp → Bool
  | .write _ _ _ | .del _ _ | .defineProp _ _ _ | .setProto | .preventExt => true
  | _ => false

/-- Operations that perform a commit: explicit commit, the scheduled microtask,
and patchState (which commits first). -/
def isCommitLike : EngOp → Bool
  | .commitOp | .fire | .applyPatchesOp _ => true
  | _ => false

/-- One engine step: the next engine state and the listener calls the operation
makes. Trap operations apply only when a wrapper exists, i.e. over an objectish
source. -/
def stepE (e : Engine) (op : EngOp) : Engine × List Emit :=
  match op with
  | .readValue => (readValueE e, [])
  | .readTrap => (subDraftE e, [])
  | .write p k w => if isObjectish e.source then (setTrapE e p k w, []) else (e, [])
  | .del p k => if isObjectish e.source then (deleteTrapE e p k, []) else (e, [])
  | .defineProp p k w =>
    if isObjectish e.source then (definePropTrapE e p k w, []) else (e, [])
  | .setProto => if isObjectish e.source then (dyeOnlyTrapE e, []) else (e, [])
  | .preventExt => if isObjectish e.source then (dyeOnlyTrapE e, []) else (e, [])
  | .commitOp => commitE e
  | .fire =>
    if e.pendingCount = 0 then (e, [])
    else
      let pr := commitE e
      ({ pr.1 with pendingCount := pr.1.pendingCount - 1 }, pr.2)
  | .setValue v => setValueE e v
  | .applyPatchesOp ps =>
    match patchState e ps with
    | some pr => pr
    | none => commitE e

/-- Engine states reachable from a fresh engine by engine operations. -/
inductive Reachable : Engine → Prop where
  | init : ∀ s : Option Value, Reachable (undou s)
  | step : ∀ (e : Engine) (op : EngOp), Reachable e → Reachable (stepE e op).1

/-- A two-engine world (an engine and its fork); each operation touches one side. -/
def worldStep (w : Engine × Engine) (op : Sum EngOp EngOp) : Engine × Engine :=
  match op with
  | .inl o => ((stepE w.1 o).1, w.2)
  | .inr o => (w.1, (stepE w.2 o).1)

/-- Run a sequence of tagged operations over a two-engine world. -/
def runWorld (w : Engine × Engine) : List (Sum EngOp EngOp) → Engine × Engine
  | [] => w
  | op :: t => runWorld (worldStep w op) t

/-- A wrapper-cache entry of the get trap (lines 149-152): the enable flag and
the identity of the cached nested wrapper (allocation number standing for
reference identity). -/
structure ProxyCatch where
  enable : Bool
  proxy : Nat
deriving Repr, DecidableEq

/-- The per-container wrapper cache: the ctx entries of one proxy plus the
allocation counter for fresh wrapper identities. -/
structure PropCache where
  entries : List (String × ProxyCatch)
  nextId : Nat
deriving Repr, DecidableEq

def lookupPC : List (String × ProxyCatch) → String → Option ProxyCatch
  | [], _ => none
  | (k', c) :: t, k => if k = k' then some c else lookupPC t k

def setPC : List (String × ProxyCatch) → String → ProxyCatch → List (String × ProxyCatch)
  | [], k, c => [(k, c)]
  | (k', c') :: t, k, c => if k = k' then (k, c) :: t else (k', c') :: setPC t k c

def removePC : List (String × ProxyCatch) → String → List (String × ProxyCatch)
  | [], _ => []
  | (k', c') :: t, k => if k = k' then t else (k', c') :: removePC t k

/-- The get trap (lines 165-203) for a property whose current draft value is a
nested draft: return the cached wrapper when present and enabled, otherwise
build a fresh wrapper, cache it enabled, and return it. -/
def getTrapDraft (c : PropCache) (prop : String) : Nat × PropCache :=
  match lookupPC c.entries prop with
  | some pc =>
    if pc.enable then (pc.proxy, c)
    else (c.nextId, { entries := setPC c.entries prop ⟨true, c.nextId⟩, nextId := c.nextId + 1 })
  | none =>
    (c.nextId, { entries := setPC c.entries prop ⟨true, c.nextId⟩, nextId := c.nextId + 1 })

/-- clearProxyCatch (lines 154-160), run by the set / deleteProperty /
defineProperty traps: disable and drop the cached entry for the property. -/
def clearProxyCatch (c : PropCache) (prop : String) : PropCache :=
  { c with entries := removePC c.entries prop }

/-- Claim C3 as stated: on reachable engines the dirty flag becomes false only
through a commit-performing operation. -/
def DirtyOnlyClearedByCommit : Prop :=
  ∀ (e : Engine) (op : EngOp), Reachable e → e.isDirty = true →
    (stepE e op).1.isDirty = false → isCommitLike op = true

/-- A fresh engine over the object of the foo : 1 binding. -/
def c3Base : Engine := undou (some (.obj [("foo", .int 1)]))

/-- The engine after the intercepted write foo := 2: dirty, with one scheduled commit. -/
def c3Dirty : Engine := (stepE c3Base (.write [] (.str "foo") (.int 2))).1

/-- An engine over foo : 1 made dirty by the intercepted write foo := 2. -/
def c1Dirty : Engine := (stepE (undou (some (.obj [("foo", .int 1)])))
  (.write [] (.str "foo") (.int 2))).1

/-- The spec scenario-1 snapshot. -/
def exS : Value := .obj [("foo", .obj [("bar", .str "baz")])]

/-- The spec scenario-1 draft after the write foo.bar := qux. -/
def exD : Value := .obj [("foo", .obj [("bar", .str "qux")])]

/-- A dirty engine holding exS as snapshot and exD as draft. -/
def exEngine : Engine :=
  { source := some exS, draft := some exD, draftCacheKey := 0, pendingCount := 1,
    isDirty := true, proxValid := true }

theorem applyPatchesV_nil (v : Value) : applyPatchesV v [] = some v := rfl

theorem applyPatchesV_cons (v : Value) (p : Patch) (l : List Patch) :
    applyPatchesV v (p :: l) = (applyPatchV v p).bind (fun v' => applyPatchesV v' l) := by
  simp [applyPatchesV, List.foldlM_cons, Option.bind_eq_bind]

theorem applyPatchesV_append (v : Value) (l1 l2 : List Patch) :
    applyPatchesV v (l1 ++ l2) = (applyPatchesV v l1).bind (fun m => applyPatchesV m l2) := by
  induction l1 generalizing v with
  | nil => simp [applyPatchesV_nil]
  | cons p t ih =>
    simp only [List.cons_append, applyPatchesV_cons]
    cases applyPatchV v p with
    | none => simp
    | some v' => simp [ih]

theorem lookupKey_setKey_self (m : List (String × Value)) (k : String) (w : Value) :
    lookupKey (setKey m k w) k = some w := by
  induction m with
  | nil => simp [setKey, lookupKey]
  | cons e t ih =>
    obtain ⟨k', v'⟩ := e
    by_cases h1 : k = k'
    · simp [setKey, h1, lookupKey]
    · by_cases h2 : k < k'
      · simp [setKey, h1, h2, lookupKey]
      · simp [setKey, h1, h2, lookupKey, ih]

theorem setKey_setKey_self (m : List (String × Value)) (k : String) (w w' : Value) :
    setKey (setKey m k w) k w' = setKey m k w' := by
  induction m with
  | nil => simp [setKey]
  | cons e t ih =>
    obtain ⟨k', v'⟩ := e
    by_cases h1 : k = k'
    · simp [setKey, h1]
    · by_cases h2 : k < k'
      · simp [setKey, h1, h2]
      · simp [setKey, h1, h2, ih]

theorem applyPatchV_consPath_obj (m : List (String × Value)) (s : String) (v r : Value) (p : Patch)
    (hl : lookupKey m s = some v) (hp : applyPatchV v p = some r) :
    applyPatchV (.obj m) (consPath (.str s) p) = some (.obj (setKey m s r)) := by
  obtain ⟨op, path, val⟩ := p
  cases path with
  | nil =>
    cases op <;> cases val <;>
      simp_all [applyPatchV, consPath, applyAt, applyTerminal]
  | cons k' rest =>
    simp only [applyPatchV, consPath] at hp ⊢
    simp [applyAt, hl, hp]

theorem lookupKey_mem (m : List (String × Value)) (k : String) (v : Value)
    (hl : lookupKey m k = some v) : k ∈ m.map Prod.fst := by
  induction m with
  | nil => simp [lookupKey] at hl
  | cons e t ih =>
    obtain ⟨k', v'⟩ := e
    by_cases h1 : k = k'
    · simp [h1]
    · simp [lookupKey, h1] at hl
      simp [ih hl]

theorem sortedStrs_cons_all (k : String) (ks : List String)
    (hs : sortedStrs (k :: ks) = true) : ∀ k' ∈ ks, k < k' := by
  unfold sortedStrs at hs
  rw [Bool.and_eq_true, List.all_eq_true] at hs
  intro k' hk'
  exact of_decide_eq_true (hs.1 k' hk')

theorem sortedStrs_cons_tail (k : String) (ks : List String)
    (hs : sortedStrs (k :: ks) = true) : sortedStrs ks = true := by
  unfold sortedStrs at hs
  rw [Bool.and_eq_true] at hs
  exact hs.2

theorem setKey_lookup_id (m : List (String × Value)) (k : String) (v : Value)
    (hs : sortedKeys m = true) (hl : lookupKey m k = some v) : setKey m k v = m := by
  induction m with
  | nil => simp [lookupKey] at hl
  | cons e t ih =>
    obtain ⟨k', v'⟩ := e
    by_cases h1 : k = k'
    · simp [lookupKey, h1] at hl
      simp [setKey, h1, hl]
    · simp [lookupKey, h1] at hl
      have hk'k : k' < k :=
        sortedStrs_cons_all k' (t.map Prod.fst) hs k (lookupKey_mem t k v hl)
      have h2 : ¬ k < k' := not_lt_of_lt hk'k
      have hst : sortedKeys t = true := sortedStrs_cons_tail k' (t.map Prod.fst) hs
      simp [setKey, h1, h2, ih hst hl]

theorem map_fst_setKey_of_lookup (m : List (String × Value)) (k : String) (v w : Value)
    (hs : sortedKeys m = true) (hl : lookupKey m k = some v) :
    (setKey m k w).map Prod.fst = m.map Prod.fst := by
  induction m with
  | nil => simp [lookupKey] at hl
  | cons e t ih =>
    obtain ⟨k', v'⟩ := e
    by_cases h1 : k = k'
    · simp [setKey, h1]
    · simp [lookupKey, h1] at hl
      have hk'k : k' < k :=
        sortedStrs_cons_all k' (t.map Prod.fst) hs k (lookupKey_mem t k v hl)
      have h2 : ¬ k < k' := not_lt_of_lt hk'k
      have hst : sortedKeys t = true := sortedStrs_cons_tail k' (t.map Prod.fst) hs
      simp [setKey, h1, h2, ih hst hl]

theorem sortedKeys_setKey_of_lookup (m : List (String × Value)) (k : String) (v w : Value)
    (hs : sortedKeys m = true) (hl : lookupKey m k = some v) :
    sortedKeys (setKey m k w) = true := by
  unfold sortedKeys
  rw [map_fst_setKey_of_lookup m k v w hs hl]
  exact hs

theorem applyPatchesV_consPath_obj (l : List Patch) :
    ∀ (m : List (String × Value)) (s : String) (v r : Value),
    sortedKeys m = true → lookupKey m s = some v → applyPatchesV v l = some r →
    applyPatchesV (.obj m) (l.map (consPath (.str s))) = some (.obj (setKey m s r)) := by
  induction l with
  | nil =>
    intro m s v r hs hl hr
    simp [applyPatchesV_nil] at hr
    subst hr
    rw [List.map_nil, applyPatchesV_nil, setKey_lookup_id m s v hs hl]
  | cons p t ih =>
    intro m s v r hs hl hr
    rw [applyPatchesV_cons] at hr
    cases hv' : applyPatchV v p with
    | none => simp [hv'] at hr
    | some v1 =>
      rw [hv'] at hr
      simp only [Option.some_bind] at hr
      rw [List.map_cons, applyPatchesV_cons,
        applyPatchV_consPath_obj m s v v1 p hl hv']
      simp only [Option.some_bind]
      have := ih (setKey m s v1) s v1 r
        (sortedKeys_setKey_of_lookup m s v v1 hs hl)
        (lookupKey_setKey_self m s v1) hr
      rw [this, setKey_setKey_self]

theorem sortedStrs_append_right (a b : List String)
    (hs : sortedStrs (a ++ b) = true) : sortedStrs b = true := by
  induction a with
  | nil => exact hs
  | cons x t ih => exact ih (sortedStrs_cons_tail x (t ++ b) hs)

theorem sortedStrs_append_lt (a : List String) (k : String) (b : List String)
    (hs : sortedStrs (a ++ k :: b) = true) : ∀ k' ∈ a, k' < k := by
  induction a with
  | nil => simp
  | cons x t ih =>
    intro k' hk'
    rcases List.mem_cons.mp hk' with h | h
    · subst h
      exact sortedStrs_cons_all k' (t ++ k :: b) hs k (by simp)
    · exact ih (sortedStrs_cons_tail x (t ++ k :: b) hs) k' h

theorem sortedStrs_drop_mid (a : List String) (k : String) (b : List String)
    (hs : sortedStrs (a ++ k :: b) = true) : sortedStrs (a ++ b) = true := by
  induction a with
  | nil => exact sortedStrs_cons_tail k b hs
  | cons x t ih =>
    have h1 := sortedStrs_cons_all x (t ++ k :: b) hs
    have h2 := sortedStrs_cons_tail x (t ++ k :: b) hs
    rw [List.cons_append]
    simp only [sortedStrs]
    rw [Bool.and_eq_true, List.all_eq_true]
    constructor
    · intro k' hk'
      apply decide_eq_true
      apply h1
      simp at hk' ⊢
      tauto
    · exact ih h2

theorem sortedKeys_mid_lt (c : List (String × Value)) (k : String) (v : Value)
    (t : List (String × Value)) (hs : sortedKeys (c ++ (k, v) :: t) = true) :
    ∀ e ∈ c, e.1 < k := by
  intro e he
  have : sortedStrs (c.map Prod.fst ++ k :: t.map Prod.fst) = true := by
    have := hs
    unfold sortedKeys at this
    rwa [List.map_append, List.map_cons] at this
  exact sortedStrs_append_lt (c.map Prod.fst) k (t.map Prod.fst) this e.1
    (List.mem_map_of_mem Prod.fst he)

theorem sortedKeys_mid_gt (c : List (String × Value)) (k : String) (v : Value)
    (t : List (String × Value)) (hs : sortedKeys (c ++ (k, v) :: t) = true) :
    ∀ e ∈ t, k < e.1 := by
  intro e he
  have h0 : sortedStrs (c.map Prod.fst ++ k :: t.map Prod.fst) = true := by
    have := hs
    unfold sortedKeys at this
    rwa [List.map_append, List.map_cons] at this
  have h1 : sortedStrs (k :: t.map Prod.fst) = true :=
    sortedStrs_append_right (c.map Prod.fst) _ h0
  exact sortedStrs_cons_all k (t.map Prod.fst) h1 e.1 (List.mem_map_of_mem Prod.fst he)

theorem sortedKeys_drop_mid (c : List (String × Value)) (k : String) (v : Value)
    (t : List (String × Value)) (hs : sortedKeys (c ++ (k, v) :: t) = true) :
    sortedKeys (c ++ t) = true := by
  have h0 : sortedStrs (c.map Prod.fst ++ k :: t.map Prod.fst) = true := by
    have := hs
    unfold sortedKeys at this
    rwa [List.map_append, List.map_cons] at this
  have h1 := sortedStrs_drop_mid (c.map Prod.fst) k (t.map Prod.fst) h0
  unfold sortedKeys
  rwa [List.map_append]

theorem sortedKeys_set_mid (c : List (String × Value)) (k : String) (v w : Value)
    (t : List (String × Value)) (hs : sortedKeys (c ++ (k, v) :: t) = true) :
    sortedKeys (c ++ (k, w) :: t) = true := by
  unfold sortedKeys at hs ⊢
  rwa [List.map_append, List.map_cons] at hs ⊢

theorem lookupKey_append_cons (c : List (String × Value)) (k : String) (v : Value)
    (t : List (String × Value)) (hlt : ∀ e ∈ c, e.1 < k) :
    lookupKey (c ++ (k, v) :: t) k = some v := by
  induction c with
  | nil => simp [lookupKey]
  | cons e c' ih =>
    obtain ⟨k', v'⟩ := e
    have hk'k : k' < k := hlt (k', v') (by simp)
    have hne : ¬ k = k' := ne_of_gt hk'k
    simp only [List.cons_append, lookupKey, if_neg hne]
    exact ih fun e he => hlt e (by simp [he])

theorem setKey_append_cons (c : List (String × Value)) (k : String) (v w : Value)
    (t : List (String × Value)) (hlt : ∀ e ∈ c, e.1 < k) :
    setKey (c ++ (k, v) :: t) k w = c ++ (k, w) :: t := by
  induction c with
  | nil => simp [setKey]
  | cons e c' ih =>
    obtain ⟨k', v'⟩ := e
    have hk'k : k' < k := hlt (k', v') (by simp)
    have hne : ¬ k = k' := ne_of_gt hk'k
    have hnlt : ¬ k < k' := not_lt_of_lt hk'k
    simp only [List.cons_append, setKey, if_neg hne, if_neg hnlt, List.cons.injEq, true_and]
    exact ih fun e he => hlt e (by simp [he])

theorem removeKey_append_cons (c : List (String × Value)) (k : String) (v : Value)
    (t : List (String × Value)) (hlt : ∀ e ∈ c, e.1 < k) :
    removeKey (c ++ (k, v) :: t) k = c ++ t := by
  induction c with
  | nil => simp [removeKey]
  | cons e c' ih =>
    obtain ⟨k', v'⟩ := e
    have hk'k : k' < k := hlt (k', v') (by simp)
    have hne : ¬ k = k' := ne_of_gt hk'k
    simp only [List.cons_append, removeKey, if_neg hne, List.cons.injEq, true_and]
    exact ih fun e he => hlt e (by simp [he])

theorem setKey_append_fresh (c : List (String × Value)) (k : String) (w : Value)
    (m : List (String × Value)) (hlt : ∀ e ∈ c, e.1 < k) (hgt : ∀ e ∈ m, k < e.1) :
    setKey (c ++ m) k w = c ++ (k, w) :: m := by
  induction c with
  | nil =>
    cases m with
    | nil => simp [setKey]
    | cons e t =>
      obtain ⟨k', v'⟩ := e
      have hkk' : k < k' := hgt (k', v') (by simp)
      have hne : ¬ k = k' := ne_of_lt hkk'
      simp only [List.nil_append, setKey, if_neg hne, if_pos hkk']
  | cons e c' ih =>
    obtain ⟨k', v'⟩ := e
    have hk'k : k' < k := hlt (k', v') (by simp)
    have hne : ¬ k = k' := ne_of_gt hk'k
    have hnlt : ¬ k < k' := not_lt_of_lt hk'k
    simp only [List.cons_append, setKey, if_neg hne, if_neg hnlt, List.cons.injEq, true_and]
    exact ih fun e he => hlt e (by simp [he])

theorem set_append_len (c : List Value) (x y : Value) (t : List Value) :
    (c ++ x :: t).set c.length y = c ++ y :: t := by
  induction c with
  | nil => simp
  | cons e c' ih => simp [List.set, ih]

theorem insertAt_append_len (c : List Value) (w : Value) (t : List Value) :
    insertAt (c ++ t) c.length w = c ++ w :: t := by
  induction c with
  | nil => cases t <;> simp [insertAt]
  | cons e c' ih => simp [insertAt, ih]

theorem eraseIdx_append_len (c : List Value) (x : Value) (t : List Value) :
    (c ++ x :: t).eraseIdx c.length = c ++ t := by
  induction c with
  | nil => simp
  | cons e c' ih => simp [List.eraseIdx, ih]

theorem sortedStrs_append_left (a b : List String)
    (hs : sortedStrs (a ++ b) = true) : sortedStrs a = true := by
  induction a with
  | nil => rfl
  | cons x t ih =>
    have h1 := sortedStrs_cons_all x (t ++ b) hs
    have h2 := sortedStrs_cons_tail x (t ++ b) hs
    simp only [sortedStrs]
    rw [Bool.and_eq_true, List.all_eq_true]
    refine ⟨fun k' hk' => decide_eq_true (h1 k' (by simp [hk'])), ih h2⟩

theorem sortedStrs_insert_mid (a : List String) (k : String) (b : List String)
    (hs : sortedStrs (a ++ b) = true) (hlt : ∀ k' ∈ a, k' < k) (hgt : ∀ k' ∈ b, k < k') :
    sortedStrs (a ++ k :: b) = true := by
  induction a with
  | nil =>
    show sortedStrs (k :: b) = true
    simp only [sortedStrs]
    rw [Bool.and_eq_true, List.all_eq_true]
    exact ⟨fun k' hk' => decide_eq_true (hgt k' hk'), hs⟩
  | cons x t ih =>
    have h1 := sortedStrs_cons_all x (t ++ b) hs
    have h2 := sortedStrs_cons_tail x (t ++ b) hs
    rw [List.cons_append]
    simp only [sortedStrs]
    rw [Bool.and_eq_true, List.all_eq_true]
    constructor
    · intro k' hk'
      apply decide_eq_true
      simp only [List.mem_append, List.mem_cons] at hk'
      rcases hk' with h | h | h
      · exact h1 k' (by simp [h])
      · subst h
        exact hlt x (by simp)
      · exact h1 k' (by simp [h])
    · exact ih h2 fun k' hk' => hlt k' (by simp [hk'])

theorem sortedKeys_left_of_mid (c : List (String × Value)) (k : String) (v : Value)
    (t : List (String × Value)) (hs : sortedKeys (c ++ (k, v) :: t) = true) :
    sortedKeys (c ++ [(k, v)]) = true := by
  have h0 : sortedStrs ((c.map Prod.fst ++ [k]) ++ t.map Prod.fst) = true := by
    have h := hs
    unfold sortedKeys at h
    rw [List.map_append, List.map_cons] at h
    rwa [List.append_assoc, List.singleton_append]
  have h1 := sortedStrs_append_left _ _ h0
  unfold sortedKeys
  rw [List.map_append, List.map_singleton]
  exact h1

theorem sortedKeys_insert_mid (c : List (String × Value)) (k : String) (v : Value)
    (m : List (String × Value)) (hs : sortedKeys (c ++ m) = true)
    (hlt : ∀ e ∈ c, e.1 < k) (hgt : ∀ e ∈ m, k < e.1) :
    sortedKeys (c ++ (k, v) :: m) = true := by
  unfold sortedKeys at hs ⊢
  rw [List.map_append] at hs
  rw [List.map_append, List.map_cons]
  apply sortedStrs_insert_mid _ _ _ hs
  · intro k' hk'
    obtain ⟨e, he, rfl⟩ := List.mem_map.mp hk'
    exact hlt e he
  · intro k' hk'
    obtain ⟨e, he, rfl⟩ := List.mem_map.mp hk'
    exact hgt e he

theorem applyPatchV_add_obj (M : List (String × Value)) (k : String) (w : Value) :
    applyPatchV (.obj M) ⟨.add, [.str k], some w⟩ = some (.obj (setKey M k w)) := rfl

theorem applyPatchV_remove_obj (M : List (String × Value)) (k : String) :
    applyPatchV (.obj M) ⟨.remove, [.str k], none⟩ = some (.obj (removeKey M k)) := rfl

theorem applyPatchV_replace_arr (A : List Value) (n : Nat) (w : Value) (h : n < A.length) :
    applyPatchV (.arr A) ⟨.replace, [.idx n], some w⟩ = some (.arr (A.set n w)) := by
  simp [applyPatchV, applyAt, applyTerminal, if_pos h]

theorem applyPatchV_add_arr (A : List Value) (n : Nat) (w : Value) (h : n ≤ A.length) :
    applyPatchV (.arr A) ⟨.add, [.idx n], some w⟩ = some (.arr (insertAt A n w)) := by
  simp [applyPatchV, applyAt, applyTerminal, if_pos h]

theorem applyPatchV_remove_arr (A : List Value) (n : Nat) (h : n < A.length) :
    applyPatchV (.arr A) ⟨.remove, [.idx n], none⟩ = some (.arr (A.eraseIdx n)) := by
  simp [applyPatchV, applyAt, applyTerminal, if_pos h]

theorem rt_arrs_nil_nil (n : Nat) : RT (.arrs n [] []) := by
  intro c hc
  simp [diffGo, applyPatchesV_nil]

theorem insertAt_len (c : List Value) (w : Value) : insertAt c c.length w = c ++ [w] := by
  have := insertAt_append_len c w []
  simpa using this

theorem eraseIdx_len (c : List Value) (x : Value) : (c ++ [x]).eraseIdx c.length = c := by
  have := eraseIdx_append_len c x []
  simpa using this

theorem rt_arrs_nil_cons (n : Nat) (y : Value) (t1 : List Value)
    (ih : RT (.arrs (n + 1) [] t1)) : RT (.arrs n [] (y :: t1)) := by
  intro c hc
  have hd : diffGo (.arrs n [] (y :: t1)) =
      ((⟨.add, [.idx n], some y⟩ : Patch) :: (diffGo (.arrs (n + 1) [] t1)).1,
       (diffGo (.arrs (n + 1) [] t1)).2 ++ [⟨.remove, [.idx n], none⟩]) := by
    simp [diffGo]
  obtain ⟨ihf, ihi⟩ := ih (c ++ [y]) (by simp [hc])
  rw [hd]
  constructor
  · rw [applyPatchesV_cons]
    have hb : n ≤ c.length := le_of_eq hc.symm
    rw [List.append_nil, applyPatchV_add_arr c n y hb]
    simp only [Option.some_bind]
    subst hc
    rw [insertAt_len c y]
    have h1 := ihf
    rw [List.append_nil] at h1
    rw [List.append_assoc, List.singleton_append] at h1
    exact h1
  · rw [applyPatchesV_append]
    have h2 := ihi
    rw [List.append_nil] at h2
    rw [List.append_assoc, List.singleton_append] at h2
    rw [h2]
    simp only [Option.some_bind]
    rw [applyPatchesV_cons]
    have hb : n < (c ++ [y]).length := by simp [hc]
    rw [applyPatchV_remove_arr (c ++ [y]) n hb]
    simp only [Option.some_bind, applyPatchesV_nil]
    subst hc
    rw [eraseIdx_len c y]
    simp

theorem rt_arrs_cons_nil (n : Nat) (x : Value) (t0 : List Value)
    (ih : RT (.arrs (n + 1) t0 [])) : RT (.arrs n (x :: t0) []) := by
  intro c hc
  have hd : diffGo (.arrs n (x :: t0) []) =
      ((diffGo (.arrs (n + 1) t0 [])).1 ++ [⟨.remove, [.idx n], none⟩],
       (⟨.add, [.idx n], some x⟩ : Patch) :: (diffGo (.arrs (n + 1) t0 [])).2) := by
    simp [diffGo]
  obtain ⟨ihf, ihi⟩ := ih (c ++ [x]) (by simp [hc])
  rw [hd]
  constructor
  · rw [applyPatchesV_append]
    have h1 := ihf
    rw [List.append_nil] at h1
    rw [List.append_assoc, List.singleton_append] at h1
    rw [h1]
    simp only [Option.some_bind]
    rw [applyPatchesV_cons]
    have hb : n < (c ++ [x]).length := by simp [hc]
    rw [applyPatchV_remove_arr (c ++ [x]) n hb]
    simp only [Option.some_bind, applyPatchesV_nil]
    subst hc
    rw [eraseIdx_len c x]
    simp
  · rw [applyPatchesV_cons]
    have hb : n ≤ c.length := le_of_eq hc.symm
    rw [List.append_nil, applyPatchV_add_arr c n x hb]
    simp only [Option.some_bind]
    subst hc
    rw [insertAt_len c x]
    have h2 := ihi
    rw [List.append_nil] at h2
    rw [List.append_assoc, List.singleton_append] at h2
    exact h2

theorem rt_arrs_cons_eq (n : Nat) (t0 : List Value) (y : Value) (t1 : List Value)
    (ih : RT (.arrs (n + 1) t0 t1)) : RT (.arrs n (y :: t0) (y :: t1)) := by
  intro c hc
  have hd : diffGo (.arrs n (y :: t0) (y :: t1)) = diffGo (.arrs (n + 1) t0 t1) := by
    simp [diffGo]
  obtain ⟨ihf, ihi⟩ := ih (c ++ [y]) (by simp [hc])
  simp only [List.append_assoc, List.singleton_append] at ihf ihi
  rw [hd]
  exact ⟨ihf, ihi⟩

theorem rt_arrs_cons_ne (n : Nat) (x : Value) (t0 : List Value) (y : Value) (t1 : List Value)
    (hne : ¬ x = y) (ih : RT (.arrs (n + 1) t0 t1)) : RT (.arrs n (x :: t0) (y :: t1)) := by
  intro c hc
  have hd : diffGo (.arrs n (x :: t0) (y :: t1)) =
      ((⟨.replace, [.idx n], some y⟩ : Patch) :: (diffGo (.arrs (n + 1) t0 t1)).1,
       (diffGo (.arrs (n + 1) t0 t1)).2 ++ [⟨.replace, [.idx n], some x⟩]) := by
    simp [diffGo, hne]
  rw [hd]
  constructor
  · rw [applyPatchesV_cons]
    have hb : n < (c ++ x :: t0).length := by simp [hc]
    rw [applyPatchV_replace_arr (c ++ x :: t0) n y hb]
    simp only [Option.some_bind]
    subst hc
    rw [set_append_len c x y t0]
    obtain ⟨ihf, _⟩ := ih (c ++ [y]) (by simp)
    simp only [List.append_assoc, List.singleton_append] at ihf
    exact ihf
  · rw [applyPatchesV_append]
    obtain ⟨_, ihi⟩ := ih (c ++ [y]) (by simp [hc])
    simp only [List.append_assoc, List.singleton_append] at ihi
    rw [ihi]
    simp only [Option.some_bind]
    rw [applyPatchesV_cons]
    have hb : n < (c ++ y :: t0).length := by simp [hc]
    rw [applyPatchV_replace_arr (c ++ y :: t0) n x hb]
    simp only [Option.some_bind, applyPatchesV_nil]
    subst hc
    rw [set_append_len c y x t0]

theorem wfEntries_tail (k : String) (v : Value) (t : List (String × Value))
    (h : wfEntries ((k, v) :: t) = true) : wf v = true ∧ wfEntries t = true := by
  simp only [wfEntries, Bool.and_eq_true] at h
  exact h

theorem rt_objs_nil_nil : RT (.objs [] []) := by
  intro c hs0 hs1 hw0 hw1
  simp [diffGo, applyPatchesV_nil]

theorem rt_objs_nil_cons (k1 : String) (v1 : Value) (t1 : List (String × Value))
    (ih : RT (.objs [] t1)) : RT (.objs [] ((k1, v1) :: t1)) := by
  intro c hs0 hs1 hw0 hw1
  have hd : diffGo (.objs [] ((k1, v1) :: t1)) =
      ((⟨.add, [.str k1], some v1⟩ : Patch) :: (diffGo (.objs [] t1)).1,
       (⟨.remove, [.str k1], none⟩ : Patch) :: (diffGo (.objs [] t1)).2) := by
    simp [diffGo]
  rw [hd]
  have hlt : ∀ e ∈ c, e.1 < k1 := sortedKeys_mid_lt c k1 v1 t1 hs1
  have hw1' : wfEntries t1 = true := (wfEntries_tail k1 v1 t1 hw1).2
  constructor
  · rw [applyPatchesV_cons, List.append_nil, applyPatchV_add_obj]
    simp only [Option.some_bind]
    have hset : setKey c k1 v1 = c ++ [(k1, v1)] := by
      have := setKey_append_fresh c k1 v1 [] hlt (by simp)
      simpa using this
    rw [hset]
    obtain ⟨ihf, _⟩ := ih (c ++ [(k1, v1)])
      (by rw [List.append_nil]; exact sortedKeys_left_of_mid c k1 v1 t1 hs1)
      (by rw [List.append_assoc, List.singleton_append]; exact hs1)
      rfl hw1'
    simp only [List.append_assoc, List.singleton_append, List.append_nil] at ihf
    exact ihf
  · rw [applyPatchesV_cons, applyPatchV_remove_obj]
    simp only [Option.some_bind]
    rw [removeKey_append_cons c k1 v1 t1 hlt]
    obtain ⟨_, ihi⟩ := ih c
      (by rw [List.append_nil]; rw [List.append_nil] at hs0; exact hs0)
      (sortedKeys_drop_mid c k1 v1 t1 hs1)
      rfl hw1'
    simp only [List.append_nil] at ihi
    rw [List.append_nil]
    exact ihi

theorem rt_objs_cons_nil (k0 : String) (v0 : Value) (t0 : List (String × Value))
    (ih : RT (.objs t0 [])) : RT (.objs ((k0, v0) :: t0) []) := by
  intro c hs0 hs1 hw0 hw1
  have hd : diffGo (.objs ((k0, v0) :: t0) []) =
      ((⟨.remove, [.str k0], none⟩ : Patch) :: (diffGo (.objs t0 [])).1,
       (⟨.add, [.str k0], some v0⟩ : Patch) :: (diffGo (.objs t0 [])).2) := by
    simp [diffGo]
  rw [hd]
  have hlt : ∀ e ∈ c, e.1 < k0 := sortedKeys_mid_lt c k0 v0 t0 hs0
  have hw0' : wfEntries t0 = true := (wfEntries_tail k0 v0 t0 hw0).2
  constructor
  · rw [applyPatchesV_cons, applyPatchV_remove_obj]
    simp only [Option.some_bind]
    rw [removeKey_append_cons c k0 v0 t0 hlt]
    obtain ⟨ihf, _⟩ := ih c
      (sortedKeys_drop_mid c k0 v0 t0 hs0)
      (by rw [List.append_nil]; rw [List.append_nil] at hs1; exact hs1)
      hw0' rfl
    simp only [List.append_nil] at ihf
    rw [List.append_nil]
    exact ihf
  · rw [applyPatchesV_cons, List.append_nil, applyPatchV_add_obj]
    simp only [Option.some_bind]
    have hset : setKey c k0 v0 = c ++ [(k0, v0)] := by
      have := setKey_append_fresh c k0 v0 [] hlt (by simp)
      simpa using this
    rw [hset]
    obtain ⟨_, ihi⟩ := ih (c ++ [(k0, v0)])
      (by rw [List.append_assoc, List.singleton_append]; exact hs0)
      (by rw [List.append_nil]; exact sortedKeys_left_of_mid c k0 v0 t0 hs0)
      hw0' rfl
    simp only [List.append_assoc, List.singleton_append, List.append_nil] at ihi
    exact ihi

theorem rt_objs_cons_eq (k1 : String) (v0 : Value) (t0 : List (String × Value)) (v1 : Value)
    (t1 : List (String × Value)) (ihv : RT (.vals v0 v1)) (iht : RT (.objs t0 t1)) :
    RT (.objs ((k1, v0) :: t0) ((k1, v1) :: t1)) := by
  intro c hs0 hs1 hw0 hw1
  have hd : diffGo (.objs ((k1, v0) :: t0) ((k1, v1) :: t1)) =
      ((diffGo (.vals v0 v1)).1.map (consPath (.str k1)) ++ (diffGo (.objs t0 t1)).1,
       (diffGo (.vals v0 v1)).2.map (consPath (.str k1)) ++ (diffGo (.objs t0 t1)).2) := by
    simp [diffGo]
  rw [hd]
  obtain ⟨hwv0, hw0'⟩ := wfEntries_tail k1 v0 t0 hw0
  obtain ⟨hwv1, hw1'⟩ := wfEntries_tail k1 v1 t1 hw1
  obtain ⟨ivf, ivi⟩ := ihv hwv0 hwv1
  have hlt0 : ∀ e ∈ c, e.1 < k1 := sortedKeys_mid_lt c k1 v0 t0 hs0
  have hlt1 : ∀ e ∈ c, e.1 < k1 := sortedKeys_mid_lt c k1 v1 t1 hs1
  constructor
  · rw [applyPatchesV_append]
    rw [applyPatchesV_consPath_obj (diffGo (.vals v0 v1)).1
        (c ++ (k1, v0) :: t0) k1 v0 v1 hs0
        (lookupKey_append_cons c k1 v0 t0 hlt0) ivf]
    simp only [Option.some_bind]
    rw [setKey_append_cons c k1 v0 v1 t0 hlt0]
    obtain ⟨ihtf, _⟩ := iht (c ++ [(k1, v1)])
      (by rw [List.append_assoc, List.singleton_append]
          exact sortedKeys_set_mid c k1 v0 v1 t0 hs0)
      (by rw [List.append_assoc, List.singleton_append]; exact hs1)
      hw0' hw1'
    simp only [List.append_assoc, List.singleton_append] at ihtf
    exact ihtf
  · rw [applyPatchesV_append]
    rw [applyPatchesV_consPath_obj (diffGo (.vals v0 v1)).2
        (c ++ (k1, v1) :: t1) k1 v1 v0 hs1
        (lookupKey_append_cons c k1 v1 t1 hlt1) ivi]
    simp only [Option.some_bind]
    rw [setKey_append_cons c k1 v1 v0 t1 hlt1]
    obtain ⟨_, ihti⟩ := iht (c ++ [(k1, v0)])
      (by rw [List.append_assoc, List.singleton_append]; exact hs0)
      (by rw [List.append_assoc, List.singleton_append]
          exact sortedKeys_set_mid c k1 v1 v0 t1 hs1)
      hw0' hw1'
    simp only [List.append_assoc, List.singleton_append] at ihti
    exact ihti

theorem rt_objs_cons_lt (k0 : String) (v0 : Value) (t0 : List (String × Value)) (k1 : String)
    (v1 : Value) (t1 : List (String × Value)) (hne : ¬ k0 = k1) (hklt : k0 < k1)
    (ih : RT (.objs t0 ((k1, v1) :: t1))) :
    RT (.objs ((k0, v0) :: t0) ((k1, v1) :: t1)) := by
  intro c hs0 hs1 hw0 hw1
  have hd : diffGo (.objs ((k0, v0) :: t0) ((k1, v1) :: t1)) =
      ((⟨.remove, [.str k0], none⟩ : Patch) :: (diffGo (.objs t0 ((k1, v1) :: t1))).1,
       (⟨.add, [.str k0], some v0⟩ : Patch) :: (diffGo (.objs t0 ((k1, v1) :: t1))).2) := by
    simp [diffGo, hne, hklt]
  rw [hd]
  have hlt0 : ∀ e ∈ c, e.1 < k0 := sortedKeys_mid_lt c k0 v0 t0 hs0
  have hw0' : wfEntries t0 = true := (wfEntries_tail k0 v0 t0 hw0).2
  have hgt : ∀ e ∈ (k1, v1) :: t1, k0 < e.1 := by
    intro e he
    rcases List.mem_cons.mp he with h | h
    · rw [h]; exact hklt
    · exact lt_trans hklt (sortedKeys_mid_gt c k1 v1 t1 hs1 e h)
  constructor
  · rw [applyPatchesV_cons, applyPatchV_remove_obj]
    simp only [Option.some_bind]
    rw [removeKey_append_cons c k0 v0 t0 hlt0]
    obtain ⟨ihf, _⟩ := ih c (sortedKeys_drop_mid c k0 v0 t0 hs0) hs1 hw0' hw1
    exact ihf
  · rw [applyPatchesV_cons, applyPatchV_add_obj]
    simp only [Option.some_bind]
    rw [setKey_append_fresh c k0 v0 ((k1, v1) :: t1) hlt0 hgt]
    obtain ⟨_, ihi⟩ := ih (c ++ [(k0, v0)])
      (by rw [List.append_assoc, List.singleton_append]; exact hs0)
      (by rw [List.append_assoc, List.singleton_append]
          exact sortedKeys_insert_mid c k0 v0 ((k1, v1) :: t1) hs1 hlt0 hgt)
      hw0' hw1
    simp only [List.append_assoc, List.singleton_append] at ihi
    exact ihi

theorem rt_objs_cons_gt (k0 : String) (v0 : Value) (t0 : List (String × Value)) (k1 : String)
    (v1 : Value) (t1 : List (String × Value)) (hne : ¬ k0 = k1) (hnlt : ¬ k0 < k1)
    (ih : RT (.objs ((k0, v0) :: t0) t1)) :
    RT (.objs ((k0, v0) :: t0) ((k1, v1) :: t1)) := by
  intro c hs0 hs1 hw0 hw1
  have hk1k0 : k1 < k0 := lt_of_le_of_ne (le_of_not_lt hnlt) (Ne.symm hne)
  have hd : diffGo (.objs ((k0, v0) :: t0) ((k1, v1) :: t1)) =
      ((⟨.add, [.str k1], some v1⟩ : Patch) :: (diffGo (.objs ((k0, v0) :: t0) t1)).1,
       (⟨.remove, [.str k1], none⟩ : Patch) :: (diffGo (.objs ((k0, v0) :: t0) t1)).2) := by
    simp [diffGo, hne, hnlt]
  rw [hd]
  have hlt1 : ∀ e ∈ c, e.1 < k1 := sortedKeys_mid_lt c k1 v1 t1 hs1
  have hw1' : wfEntries t1 = true := (wfEntries_tail k1 v1 t1 hw1).2
  have hgt : ∀ e ∈ (k0, v0) :: t0, k1 < e.1 := by
    intro e he
    rcases List.mem_cons.mp he with h | h
    · rw [h]; exact hk1k0
    · exact lt_trans hk1k0 (sortedKeys_mid_gt c k0 v0 t0 hs0 e h)
  constructor
  · rw [applyPatchesV_cons, applyPatchV_add_obj]
    simp only [Option.some_bind]
    rw [setKey_append_fresh c k1 v1 ((k0, v0) :: t0) hlt1 hgt]
    obtain ⟨ihf, _⟩ := ih (c ++ [(k1, v1)])
      (by rw [List.append_assoc, List.singleton_append]
          exact sortedKeys_insert_mid c k1 v1 ((k0, v0) :: t0) hs0 hlt1 hgt)
      (by rw [List.append_assoc, List.singleton_append]; exact hs1)
      hw0 hw1'
    simp only [List.append_assoc, List.singleton_append] at ihf
    exact ihf
  · rw [applyPatchesV_cons, applyPatchV_remove_obj]
    simp only [Option.some_bind]
    rw [removeKey_append_cons c k1 v1 t1 hlt1]
    obtain ⟨_, ihi⟩ := ih c hs0 (sortedKeys_drop_mid c k1 v1 t1 hs1) hw0 hw1'
    exact ihi

theorem rt_vals_obj (m0 m1 : List (String × Value)) (ih : RT (.objs m0 m1)) :
    RT (.vals (.obj m0) (.obj m1)) := by
  intro hw0 hw1
  simp only [wf, Bool.and_eq_true] at hw0 hw1
  have hd : diffGo (.vals (.obj m0) (.obj m1)) = diffGo (.objs m0 m1) := by
    simp [diffGo]
  rw [hd]
  obtain ⟨ihf, ihi⟩ := ih []
    (by rw [List.nil_append]; exact hw0.1)
    (by rw [List.nil_append]; exact hw1.1)
    hw0.2 hw1.2
  rw [List.nil_append] at ihf ihi
  exact ⟨ihf, ihi⟩

theorem rt_vals_arr (a0 a1 : List Value) (ih : RT (.arrs 0 a0 a1)) :
    RT (.vals (.arr a0) (.arr a1)) := by
  intro hw0 hw1
  have hd : diffGo (.vals (.arr a0) (.arr a1)) = diffGo (.arrs 0 a0 a1) := by
    simp [diffGo]
  rw [hd]
  obtain ⟨ihf, ihi⟩ := ih [] rfl
  rw [List.nil_append] at ihf ihi
  exact ⟨ihf, ihi⟩

theorem rt_vals_other (v0 v1 : Value)
    (hno : ∀ m0 m1 : List (String × Value), v0 = Value.obj m0 → v1 = Value.obj m1 → False)
    (hna : ∀ a0 a1 : List Value, v0 = Value.arr a0 → v1 = Value.arr a1 → False) :
    RT (.vals v0 v1) := by
  intro hw0 hw1
  by_cases he : v0 = v1
  · have hd : diffGo (.vals v0 v1) = ([], []) := by
      subst he
      cases v0 with
      | obj m => exact absurd rfl (fun h => hno m m h h)
      | arr a => exact absurd rfl (fun h => hna a a h h)
      | str s => simp [diffGo]
      | int n => simp [diffGo]
      | bool b => simp [diffGo]
      | null => simp [diffGo]
    rw [hd, he]
    exact ⟨applyPatchesV_nil v1, applyPatchesV_nil v1⟩
  · have hd : diffGo (.vals v0 v1) =
        ([⟨.replace, [], some v1⟩], [⟨.replace, [], some v0⟩]) := by
      cases v0 <;> cases v1 <;>
        first
          | exact (hno _ _ rfl rfl).elim
          | exact (hna _ _ rfl rfl).elim
          | exact absurd rfl he
          | simp [diffGo, he]
    rw [hd]
    constructor
    · rw [applyPatchesV_cons]
      show (some v1).bind (fun v' => applyPatchesV v' []) = some v1
      simp [applyPatchesV_nil]
    · rw [applyPatchesV_cons]
      show (some v0).bind (fun v' => applyPatchesV v' []) = some v0
      simp [applyPatchesV_nil]

/-- The diff walk round-trips in every mode and context. -/
theorem diffGo_rt : ∀ a : DiffArg, RT a := by
  apply diffGo.induct RT
  · exact rt_vals_obj
  · exact rt_vals_arr
  · exact fun v1 hno hna => rt_vals_other v1 v1 hno hna
  · exact fun v0 v1 hno hna _ => rt_vals_other v0 v1 hno hna
  · exact rt_objs_nil_nil
  · exact fun k1 v1 t1 _ _ _ ih => rt_objs_nil_cons k1 v1 t1 ih
  · exact fun k0 v0 t0 _ _ _ ih => rt_objs_cons_nil k0 v0 t0 ih
  · exact fun v0 t0 k1 v1 t1 _ _ _ _ _ _ ihv iht => rt_objs_cons_eq k1 v0 t0 v1 t1 ihv iht
  · exact fun k0 v0 t0 k1 v1 t1 hne hklt _ _ _ ih => rt_objs_cons_lt k0 v0 t0 k1 v1 t1 hne hklt ih
  · exact fun k0 v0 t0 k1 v1 t1 hne hnlt _ _ _ ih => rt_objs_cons_gt k0 v0 t0 k1 v1 t1 hne hnlt ih
  · exact rt_arrs_nil_nil
  · exact fun n y t1 _ _ _ ih => rt_arrs_nil_cons n y t1 ih
  · exact fun n x t0 _ _ _ ih => rt_arrs_cons_nil n x t0 ih
  · exact fun n t0 y t1 ih => rt_arrs_cons_eq n t0 y t1 ih
  · exact fun n x t0 y t1 hne _ _ _ ih => rt_arrs_cons_ne n x t0 y t1 hne ih

/-- Round trip of the structural diff: forward patches rebuild the target,
inverse patches rebuild the source, for well-formed values. -/
theorem diffV_roundtrip (v0 v1 : Value) (hw0 : wf v0 = true) (hw1 : wf v1 = true) :
    applyPatchesV v0 (diffV v0 v1).1 = some v1 ∧
    applyPatchesV v1 (diffV v0 v1).2 = some v0 :=
  diffGo_rt (.vals v0 v1) hw0 hw1

theorem diffGo_self : ∀ a : DiffArg, DS a := by
  apply diffGo.induct DS <;> simp only [DS] <;> intros <;> simp_all [diffGo]

theorem diffGo_len : ∀ a : DiffArg, LEN a := by
  apply diffGo.induct LEN
  case case9 =>
    intro k0 v0 t0 k1 v1 t1 hne hklt f i hfi ih
    simp only [LEN] at *
    rw [hfi] at ih
    simp [diffGo, hne, hklt, hfi, ih]
  case case10 =>
    intro k0 v0 t0 k1 v1 t1 hne hnlt f i hfi ih
    simp only [LEN] at *
    rw [hfi] at ih
    simp [diffGo, hne, hnlt, hfi, ih]
  all_goals simp only [LEN]
  all_goals intros
  all_goals simp_all [diffGo]

/-- The diff of two well-formed values is empty exactly when they are equal. -/
theorem diffV_fst_nil_iff (v0 v1 : Value) (hw0 : wf v0 = true) (hw1 : wf v1 = true) :
    (diffV v0 v1).1 = [] ↔ v0 = v1 := by
  constructor
  · intro h
    have hrt := (diffV_roundtrip v0 v1 hw0 hw1).1
    rw [h, applyPatchesV_nil] at hrt
    exact Option.some.inj hrt
  · intro h
    subst h
    have hds := diffGo_self (.vals v0 v0) rfl
    unfold diffV
    rw [hds]

theorem diffGo_rootOk : ∀ a : DiffArg, ROOTOK a := by
  apply diffGo.induct ROOTOK
  case case9 =>
    intro k0 v0 t0 k1 v1 t1 hne hklt f i hfi ih
    simp only [ROOTOK] at *
    rw [hfi] at ih
    simp only [diffGo, if_neg hne, if_pos hklt, hfi]
    constructor
    · intro p hp
      rcases List.mem_cons.mp hp with h | h
      · subst h; intro hc; cases hc
      · exact ih.1 p h
    · intro p hp
      rcases List.mem_cons.mp hp with h | h
      · subst h; intro hc; cases hc
      · exact ih.2 p h
  case case10 =>
    intro k0 v0 t0 k1 v1 t1 hne hnlt f i hfi ih
    simp only [ROOTOK] at *
    rw [hfi] at ih
    simp only [diffGo, if_neg hne, if_neg hnlt, hfi]
    constructor
    · intro p hp
      rcases List.mem_cons.mp hp with h | h
      · subst h; intro hc; cases hc
      · exact ih.1 p h
    · intro p hp
      rcases List.mem_cons.mp hp with h | h
      · subst h; intro hc; cases hc
      · exact ih.2 p h
  case case8 =>
    intro v0 t0 k1 v1 t1 fv iv hfv f i hfi ihv iht
    simp only [ROOTOK] at *
    rw [hfi] at iht
    have hd : diffGo (.objs ((k1, v0) :: t0) ((k1, v1) :: t1)) =
        (fv.map (consPath (.str k1)) ++ f, iv.map (consPath (.str k1)) ++ i) := by
      simp [diffGo, hfv, hfi]
    rw [hd]
    constructor
    · intro p hp
      rcases List.mem_append.mp hp with h | h
      · obtain ⟨a, ha, rfl⟩ := List.mem_map.mp h
        intro hc; cases hc
      · exact iht.1 p h
    · intro p hp
      rcases List.mem_append.mp hp with h | h
      · obtain ⟨a, ha, rfl⟩ := List.mem_map.mp h
        intro hc; cases hc
      · exact iht.2 p h
  case case12 =>
    intro n y t1 f i hfi ih
    simp only [ROOTOK] at *
    rw [hfi] at ih
    have hd : diffGo (.arrs n [] (y :: t1)) =
        ((⟨.add, [.idx n], some y⟩ : Patch) :: f, i ++ [⟨.remove, [.idx n], none⟩]) := by
      simp [diffGo, hfi]
    rw [hd]
    constructor
    · intro p hp
      rcases List.mem_cons.mp hp with h | h
      · subst h; intro hc; cases hc
      · exact ih.1 p h
    · intro p hp
      rcases List.mem_append.mp hp with h | h
      · exact ih.2 p h
      · rw [List.mem_singleton.mp h]
        intro hc; cases hc
  case case13 =>
    intro n x t0 f i hfi ih
    simp only [ROOTOK] at *
    rw [hfi] at ih
    have hd : diffGo (.arrs n (x :: t0) []) =
        (f ++ [⟨.remove, [.idx n], none⟩], (⟨.add, [.idx n], some x⟩ : Patch) :: i) := by
      simp [diffGo, hfi]
    rw [hd]
    constructor
    · intro p hp
      rcases List.mem_append.mp hp with h | h
      · exact ih.1 p h
      · rw [List.mem_singleton.mp h]
        intro hc; cases hc
    · intro p hp
      rcases List.mem_cons.mp hp with h | h
      · subst h; intro hc; cases hc
      · exact ih.2 p h
  case case15 =>
    intro n x t0 y t1 hne f i hfi ih
    simp only [ROOTOK] at *
    rw [hfi] at ih
    have hd : diffGo (.arrs n (x :: t0) (y :: t1)) =
        ((⟨.replace, [.idx n], some y⟩ : Patch) :: f, i ++ [⟨.replace, [.idx n], some x⟩]) := by
      simp [diffGo, hne, hfi]
    rw [hd]
    constructor
    · intro p hp
      rcases List.mem_cons.mp hp with h | h
      · subst h; intro hc; cases hc
      · exact ih.1 p h
    · intro p hp
      rcases List.mem_append.mp hp with h | h
      · exact ih.2 p h
      · rw [List.mem_singleton.mp h]
        intro hc; cases hc
  all_goals simp only [ROOTOK]
  all_goals intros
  all_goals simp_all [diffGo, rootOkP, consPath]

theorem applyPatchTop_of_applyPatchV (v r : Value) (p : Patch) (hro : rootOkP p)
    (h : applyPatchV v p = some r) : applyPatchTop (some v) p = some (some r) := by
  obtain ⟨op, path, val⟩ := p
  cases path with
  | nil =>
    have hop : op = POp.replace := hro rfl
    subst hop
    cases val with
    | none => simp [applyPatchV] at h
    | some w =>
      simp [applyPatchV] at h
      simp [applyPatchTop, h]
  | cons k rest =>
    simp only [applyPatchTop, applyPatchV] at h ⊢
    rw [h]
    rfl

theorem applyPatches_of_applyPatchesV (l : List Patch) :
    ∀ v r : Value, (∀ p ∈ l, rootOkP p) → applyPatchesV v l = some r →
    applyPatches (some v) l = some (some r) := by
  induction l with
  | nil =>
    intro v r _ h
    rw [applyPatchesV_nil] at h
    cases h
    rfl
  | cons p t ih =>
    intro v r hro h
    rw [applyPatchesV_cons] at h
    cases hv' : applyPatchV v p with
    | none => rw [hv'] at h; simp at h
    | some v1 =>
      rw [hv'] at h
      simp only [Option.some_bind] at h
      show (applyPatchTop (some v) p).bind (fun s' => applyPatches s' t) = some (some r)
      rw [applyPatchTop_of_applyPatchV v v1 p (hro p (by simp)) hv']
      simp only [Option.some_bind]
      exact ih v1 r (fun q hq => hro q (by simp [hq])) h

/-- C2: a commit that turns Snapshot S0 (= s) into Snapshot S1 (= the final
draft d) emits a patch pair (P, Pinv) such that applying P as a batch to S0
reconstructs exactly S1 and applying Pinv to S1 reconstructs exactly S0. -/
theorem commit_roundtrip (e : Engine) (s d : Value)
    (hs : e.source = some s) (hd : e.draft = some d) (hdirty : e.isDirty = true)
    (hw0 : wf s = true) (hw1 : wf d = true) :
    (commitE e).1.source = some d ∧
    applyPatches (some s) (commitDiff e).1 = some (some d) ∧
    applyPatches (some d) (commitDiff e).2 = some (some s) := by
  have hcd : commitDiff e = diffV s d := by
    simp [commitDiff, hs, hd]
  have hrt := diffV_roundtrip s d hw0 hw1
  have hro := diffGo_rootOk (.vals s d)
  refine ⟨?_, ?_, ?_⟩
  · simp [commitE, hd, hdirty, setSource, clearDraftCache]
  · rw [hcd]
    exact applyPatches_of_applyPatchesV (diffV s d).1 s d hro.1 hrt.1
  · rw [hcd]
    exact applyPatches_of_applyPatchesV (diffV s d).2 d s hro.2 hrt.2

/-- C5: for a commit of a dirty engine, the listener is invoked iff the emitted
forward/inverse lists are non-empty; a draft structurally identical to the
snapshot yields empty lists and no invocation; a commit producing at least one
patch invokes the listener exactly once, with exactly the emitted pair. -/
theorem commit_listener_iff (e : Engine) (s d : Value)
    (hs : e.source = some s) (hd : e.draft = some d) (hdirty : e.isDirty = true) :
    ((commitE e).2 = [] ↔ (commitDiff e).1 = [] ∧ (commitDiff e).2 = []) ∧
    (d = s → commitDiff e = ([], []) ∧ (commitE e).2 = []) ∧
    ((commitDiff e).1 ≠ [] → (commitE e).2 = [⟨(commitDiff e).1, (commitDiff e).2⟩]) ∧
    (commitE e).2.length ≤ 1 := by
  have hcd : commitDiff e = diffV s d := by
    simp [commitDiff, hs, hd]
  have hev : (commitE e).2 =
      (if (commitDiff e).1 = [] ∧ (commitDiff e).2 = [] then ([] : List Emit)
       else [⟨(commitDiff e).1, (commitDiff e).2⟩]) := by
    simp [commitE, hd, hdirty]
  refine ⟨?_, ?_, ?_, ?_⟩
  · rw [hev]
    by_cases h : (commitDiff e).1 = [] ∧ (commitDiff e).2 = []
    · simp [h]
    · simp [h]
  · intro heq
    have hds : diffGo (.vals s d) = ([], []) := diffGo_self (.vals s d) heq.symm
    have hnil : commitDiff e = ([], []) := by rw [hcd]; exact hds
    refine ⟨hnil, ?_⟩
    rw [hev, hnil]
    simp
  · intro hne
    rw [hev]
    simp [hne]
  · rw [hev]
    by_cases h : (commitDiff e).1 = [] ∧ (commitDiff e).2 = []
    · simp [h]
    · simp [h]

/-- C4: assigning the root (Handle.value = newRoot, including the
undefined/absent sentinel none) emits exactly one patch pair whose paths are the
empty path [], forward replacing the root with newRoot and inverse with the
prior root, never per-key patches; the snapshot is replaced, the draft dropped
and the engine left clean. -/
theorem root_assignment_single_patch (e : Engine) (v : Option Value) :
    (setValueE e v).2 = [⟨[⟨.replace, [], v⟩], [⟨.replace, [], e.source⟩]⟩] ∧
    (setValueE e v).1.source = v ∧
    (setValueE e v).1.draft = none ∧
    (setValueE e v).1.isDirty = false ∧
    (∀ em ∈ (setValueE e v).2, em.patches.length = 1 ∧ em.inversePatches.length = 1 ∧
      ∀ p ∈ em.patches ++ em.inversePatches, p.path = [] ∧ p.op = POp.replace) := by
  refine ⟨rfl, rfl, rfl, rfl, ?_⟩
  intro em hem
  simp only [setValueE, List.mem_singleton] at hem
  subst hem
  refine ⟨rfl, rfl, ?_⟩
  intro p hp
  rcases List.mem_append.mp hp with h | h <;>
    (rw [List.mem_singleton.mp h]; exact ⟨rfl, rfl⟩)

theorem lookupPC_setPC_self (l : List (String × ProxyCatch)) (k : String) (c : ProxyCatch) :
    lookupPC (setPC l k c) k = some c := by
  induction l with
  | nil => simp [setPC, lookupPC]
  | cons e t ih =>
    obtain ⟨k', c'⟩ := e
    by_cases h : k = k'
    · simp [setPC, h, lookupPC]
    · simp [setPC, h, lookupPC, ih]

/-- C7: reading the same unchanged nested container twice through the wrapper,
with no intervening mutation, returns the identical wrapper both times
(reference identity, modelled by the allocation number). -/
theorem wrapper_identity_stable (c : PropCache) (prop : String) :
    (getTrapDraft (getTrapDraft c prop).2 prop).1 = (getTrapDraft c prop).1 := by
  unfold getTrapDraft
  cases hl : lookupPC c.entries prop with
  | none => simp [lookupPC_setPC_self]
  | some pc =>
    by_cases he : pc.enable
    · simp [he, hl]
    · simp [he, lookupPC_setPC_self]

theorem runWorld_left_frame (σ : List (Sum EngOp EngOp)) :
    ∀ w : Engine × Engine, (∀ o ∈ σ, o.isLeft = true) → (runWorld w σ).2 = w.2 := by
  induction σ with
  | nil => intro w _; rfl
  | cons o t ih =>
    intro w h
    cases o with
    | inl o' =>
      show (runWorld ((stepE w.1 o').1, w.2) t).2 = w.2
      exact ih _ fun o ho => h o (by simp [ho])
    | inr o' =>
      have := h (.inr o') (by simp)
      simp [Sum.isLeft] at this

theorem runWorld_right_frame (σ : List (Sum EngOp EngOp)) :
    ∀ w : Engine × Engine, (∀ o ∈ σ, o.isRight = true) → (runWorld w σ).1 = w.1 := by
  induction σ with
  | nil => intro w _; rfl
  | cons o t ih =>
    intro w h
    cases o with
    | inr o' =>
      show (runWorld (w.1, (stepE w.2 o').1) t).1 = w.1
      exact ih _ fun o ho => h o (by simp [ho])
    | inl o' =>
      have := h (.inl o') (by simp)
      simp [Sum.isRight] at this

/-- C8: forkState first forces a commit of the source engine and returns a
brand-new engine over the committed snapshot with its own fresh draft,
generation tag, dirty flag and pending state; afterwards any operation sequence
on either engine leaves the other unchanged. -/
theorem fork_independent (e : Engine) :
    (forkState e).1 = commitE e ∧
    (forkState e).2 = undou (commitE e).1.source ∧
    (forkState e).2.source = (commitE e).1.source ∧
    (forkState e).2.isDirty = false ∧
    (forkState e).2.draft = none ∧
    (forkState e).2.pendingCount = 0 ∧
    (forkState e).2.draftCacheKey = 0 ∧
    (∀ σ : List (Sum EngOp EngOp), (∀ o ∈ σ, o.isLeft = true) →
      (runWorld ((commitE e).1, (forkState e).2) σ).2 = (forkState e).2) ∧
    (∀ σ : List (Sum EngOp EngOp), (∀ o ∈ σ, o.isRight = true) →
      (runWorld ((commitE e).1, (forkState e).2) σ).1 = (commitE e).1) := by
  refine ⟨rfl, rfl, rfl, rfl, rfl, rfl, rfl, ?_, ?_⟩
  · intro σ h
    exact runWorld_left_frame σ _ h
  · intro σ h
    exact runWorld_right_frame σ _ h

theorem commitE_isDirty_false (e : Engine) (hdd : e.isDirty = true → e.draft ≠ none) :
    (commitE e).1.isDirty = false := by
  cases hd : e.draft with
  | none =>
    cases hdirty : e.isDirty with
    | false => simp [commitE, hd, hdirty]
    | true => exact absurd hd (hdd hdirty)
  | some d =>
    cases hdirty : e.isDirty with
    | false => simp [commitE, hd, hdirty]
    | true => simp [commitE, hd, hdirty]

/-- C9: patchState forces a commit, then installs the result of applying the
patches to the committed snapshot as the new snapshot, discarding the draft and
bumping the generation tag; the replay itself emits no listener call (only the
forced commit may), and afterwards the engine is clean and .value reflects the
patched snapshot. -/
theorem patchState_spec (e : Engine) (ps : List Patch) (s' : Option Value)
    (hdd : e.isDirty = true → e.draft ≠ none)
    (happ : applyPatches (commitE e).1.source ps = some s') :
    patchState e ps = some (setStateSource (commitE e).1 s', (commitE e).2) ∧
    (setStateSource (commitE e).1 s').source = s' ∧
    (setStateSource (commitE e).1 s').draft = none ∧
    (setStateSource (commitE e).1 s').isDirty = false ∧
    (setStateSource (commitE e).1 s').draftCacheKey = (commitE e).1.draftCacheKey + 1 ∧
    currentView (setStateSource (commitE e).1 s') = s' := by
  refine ⟨?_, rfl, rfl, ?_, rfl, ?_⟩
  · simp [patchState, happ]
  · show (commitE e).1.isDirty = false
    exact commitE_isDirty_false e hdd
  · by_cases h : isObjectish s' = true
    · simp [currentView, subDraftE, setStateSource, setSource, h]
    · simp [currentView, subDraftE, setStateSource, setSource, h]

theorem dye_effect (x : Engine) :
    (dye x).isDirty = true ∧ 1 ≤ (dye x).pendingCount ∧
    (dye x).source = x.source ∧ (dye x).draft = x.draft := by
  unfold dye schedulerDefault
  by_cases h : x.pendingCount ≠ 0
  · refine ⟨by simp [h], by simp [h]; omega, by simp [h], by simp [h]⟩
  · refine ⟨by simp [h], by simp [h], by simp [h], by simp [h]⟩

/-- C10: the read-only operations (the value getter, and the has / ownKeys /
getOwnPropertyDescriptor family whose engine effect is subDraft) never change
the dirty flag, the pending-commit state, or the committed snapshot, and emit no
listener call; every mutating trap (set, deleteProperty, defineProperty,
setPrototypeOf, preventExtensions) marks the engine dirty and leaves a commit
scheduled. -/
theorem read_write_effects (e : Engine) :
    ((stepE e .readValue).1.isDirty = e.isDirty ∧
     (stepE e .readValue).1.pendingCount = e.pendingCount ∧
     (stepE e .readValue).1.source = e.source ∧
     (stepE e .readValue).2 = []) ∧
    ((stepE e .readTrap).1.isDirty = e.isDirty ∧
     (stepE e .readTrap).1.pendingCount = e.pendingCount ∧
     (stepE e .readTrap).1.source = e.source ∧
     (stepE e .readTrap).2 = []) ∧
    (∀ op, isMutTrap op = true → isObjectish e.source = true →
      (stepE e op).1.isDirty = true ∧ 1 ≤ (stepE e op).1.pendingCount) := by
  refine ⟨?_, ?_, ?_⟩
  · show ((readValueE e).isDirty = e.isDirty ∧ (readValueE e).pendingCount = e.pendingCount ∧
      (readValueE e).source = e.source ∧ ([] : List Emit) = [])
    unfold readValueE
    split_ifs <;> exact ⟨rfl, rfl, rfl, rfl⟩
  · show ((subDraftE e).isDirty = e.isDirty ∧ (subDraftE e).pendingCount = e.pendingCount ∧
      (subDraftE e).source = e.source ∧ ([] : List Emit) = [])
    unfold subDraftE
    split_ifs <;> exact ⟨rfl, rfl, rfl, rfl⟩
  · intro op hmut hobj
    cases op <;> simp only [isMutTrap] at hmut <;>
      simp only [stepE, hobj, if_pos] <;>
      first
        | exact ⟨(dye_effect _).1, (dye_effect _).2.1⟩
        | exact absurd hmut (by simp)

theorem commitE_pending (e : Engine) : (commitE e).1.pendingCount = e.pendingCount := by
  cases hd : e.draft with
  | none => simp [commitE, hd]
  | some d =>
    cases hdirty : e.isDirty with
    | false => simp [commitE, hd, hdirty]
    | true => simp [commitE, hd, hdirty, setSource, clearDraftCache]

theorem dye_pending_le (x : Engine) (h : x.pendingCount ≤ 1) : (dye x).pendingCount ≤ 1 := by
  unfold dye schedulerDefault
  by_cases hp : x.pendingCount ≠ 0
  · simpa [hp] using h
  · simp [hp]
    omega

theorem step_pending_le (e : Engine) (op : EngOp) (h : e.pendingCount ≤ 1) :
    (stepE e op).1.pendingCount ≤ 1 := by
  cases op with
  | readValue =>
    show (readValueE e).pendingCount ≤ 1
    unfold readValueE
    split_ifs <;> exact h
  | readTrap =>
    show (subDraftE e).pendingCount ≤ 1
    unfold subDraftE
    split_ifs <;> exact h
  | write p k w =>
    show (if isObjectish e.source then (setTrapE e p k w, ([] : List Emit)) else (e, [])).1.pendingCount ≤ 1
    split_ifs with ho
    · apply dye_pending_le
      show (writeDraft (subDraftE e) _ _).pendingCount ≤ 1
      unfold writeDraft subDraftE
      split_ifs <;> (try split) <;> (try split) <;> exact h
    · exact h
  | del p k =>
    show (if isObjectish e.source then (deleteTrapE e p k, ([] : List Emit)) else (e, [])).1.pendingCount ≤ 1
    split_ifs with ho
    · apply dye_pending_le
      show (writeDraft (subDraftE e) _ _).pendingCount ≤ 1
      unfold writeDraft subDraftE
      split_ifs <;> (try split) <;> (try split) <;> exact h
    · exact h
  | defineProp p k w =>
    show (if isObjectish e.source then (definePropTrapE e p k w, ([] : List Emit)) else (e, [])).1.pendingCount ≤ 1
    split_ifs with ho
    · apply dye_pending_le
      show (writeDraft (subDraftE e) _ _).pendingCount ≤ 1
      unfold writeDraft subDraftE
      split_ifs <;> (try split) <;> (try split) <;> exact h
    · exact h
  | setProto =>
    show (if isObjectish e.source then (dyeOnlyTrapE e, ([] : List Emit)) else (e, [])).1.pendingCount ≤ 1
    split_ifs with ho
    · apply dye_pending_le
      show (subDraftE e).pendingCount ≤ 1
      unfold subDraftE
      split_ifs <;> exact h
    · exact h
  | preventExt =>
    show (if isObjectish e.source then (dyeOnlyTrapE e, ([] : List Emit)) else (e, [])).1.pendingCount ≤ 1
    split_ifs with ho
    · apply dye_pending_le
      show (subDraftE e).pendingCount ≤ 1
      unfold subDraftE
      split_ifs <;> exact h
    · exact h
  | commitOp =>
    show (commitE e).1.pendingCount ≤ 1
    rw [commitE_pending]
    exact h
  | fire =>
    simp only [stepE]
    split_ifs with hp
    · exact h
    · simp only []
      have := commitE_pending e
      omega
  | setValue v =>
    show (setValueE e v).1.pendingCount ≤ 1
    exact h
  | applyPatchesOp ps =>
    simp only [stepE]
    cases hps : patchState e ps with
    | none =>
      show (commitE e).1.pendingCount ≤ 1
      rw [commitE_pending]
      exact h
    | some pr =>
      simp only [patchState] at hps
      cases happ : applyPatches (commitE e).1.source ps with
      | none => rw [happ] at hps; simp at hps
      | some s' =>
        rw [happ] at hps
        have hpr : pr = (setStateSource (commitE e).1 s', (commitE e).2) :=
          (Option.some.inj hps).symm
        rw [hpr]
        show (commitE e).1.pendingCount ≤ 1
        rw [commitE_pending]
        exact h

/-- Invariant: a reachable engine never has more than one scheduled commit. -/
theorem reach_pending_le_one (e : Engine) (h : Reachable e) : e.pendingCount ≤ 1 := by
  induction h with
  | init s => exact Nat.zero_le 1
  | step e' op _ ih => exact step_pending_le e' op ih

theorem isObjectish_some (s : Option Value) (h : isObjectish s = true) : s ≠ none := by
  cases s with
  | none => simp [isObjectish] at h
  | some v => simp

theorem dye_draft (x : Engine) : (dye x).draft = x.draft := (dye_effect x).2.2.2

theorem dye_isDirty (x : Engine) : (dye x).isDirty = true := (dye_effect x).1

theorem subDraftE_draft_some (e : Engine) (h : isObjectish e.source = true) :
    (subDraftE e).draft ≠ none := by
  unfold subDraftE
  split_ifs with hc
  · show e.source ≠ none
    exact isObjectish_some e.source h
  · intro hn
    exact hc ⟨hn, h⟩

theorem writeDraft_draft_some (x : Engine) (g : Value → Option Value) (p : List PKey)
    (h : x.draft ≠ none) : (writeDraft x g p).draft ≠ none := by
  unfold writeDraft
  cases hd : x.draft with
  | none => exact absurd hd h
  | some d =>
    show ¬ (match updAtPath d p g with
      | some d' => { x with draft := some d' }
      | none => x).draft = none
    cases hu : updAtPath d p g with
    | none => exact h
    | some d' => simp

theorem step_dirty_draft (e : Engine) (op : EngOp)
    (h : e.isDirty = true → e.draft ≠ none) :
    (stepE e op).1.isDirty = true → (stepE e op).1.draft ≠ none := by
  cases op with
  | readValue =>
    show (readValueE e).isDirty = true → (readValueE e).draft ≠ none
    unfold readValueE
    split_ifs with h1 h2
    · exact h
    · intro _
      show e.source ≠ none
      exact isObjectish_some e.source h2
    · exact h
  | readTrap =>
    show (subDraftE e).isDirty = true → (subDraftE e).draft ≠ none
    unfold subDraftE
    split_ifs with h1
    · intro _
      show e.source ≠ none
      exact isObjectish_some e.source h1.2
    · exact h
  | write p k w =>
    simp only [stepE]
    split_ifs with ho
    · intro _
      show (dye (writeDraft (subDraftE e) _ _)).draft ≠ none
      rw [dye_draft]
      exact writeDraft_draft_some _ _ _ (subDraftE_draft_some e ho)
    · exact h
  | del p k =>
    simp only [stepE]
    split_ifs with ho
    · intro _
      show (dye (writeDraft (subDraftE e) _ _)).draft ≠ none
      rw [dye_draft]
      exact writeDraft_draft_some _ _ _ (subDraftE_draft_some e ho)
    · exact h
  | defineProp p k w =>
    simp only [stepE]
    split_ifs with ho
    · intro _
      show (dye (writeDraft (subDraftE e) _ _)).draft ≠ none
      rw [dye_draft]
      exact writeDraft_draft_some _ _ _ (subDraftE_draft_some e ho)
    · exact h
  | setProto =>
    simp only [stepE]
    split_ifs with ho
    · intro _
      show (dye (subDraftE e)).draft ≠ none
      rw [dye_draft]
      exact subDraftE_draft_some e ho
    · exact h
  | preventExt =>
    simp only [stepE]
    split_ifs with ho
    · intro _
      show (dye (subDraftE e)).draft ≠ none
      rw [dye_draft]
      exact subDraftE_draft_some e ho
    · exact h
  | commitOp =>
    intro hdirty
    exfalso
    have hdirty' : (commitE e).1.isDirty = true := hdirty
    rw [commitE_isDirty_false e h] at hdirty'
    cases hdirty'
  | fire =>
    simp only [stepE]
    split_ifs with hp
    · exact h
    · intro hdirty
      exfalso
      have hdirty' : (commitE e).1.isDirty = true := hdirty
      rw [commitE_isDirty_false e h] at hdirty'
      cases hdirty'
  | setValue v =>
    intro hdirty
    exfalso
    have hdirty' : (setValueE e v).1.isDirty = true := hdirty
    cases hdirty'
  | applyPatchesOp ps =>
    simp only [stepE]
    cases hps : patchState e ps with
    | none =>
      intro hdirty
      exfalso
      have hdirty' : (commitE e).1.isDirty = true := hdirty
      rw [commitE_isDirty_false e h] at hdirty'
      cases hdirty'
    | some pr =>
      simp only [patchState] at hps
      cases happ : applyPatches (commitE e).1.source ps with
      | none => rw [happ] at hps; simp at hps
      | some s' =>
        rw [happ] at hps
        have hpr : pr = (setStateSource (commitE e).1 s', (commitE e).2) :=
          (Option.some.inj hps).symm
        rw [hpr]
        intro hdirty
        exfalso
        have : (setStateSource (commitE e).1 s').isDirty = (commitE e).1.isDirty := rfl
        rw [this, commitE_isDirty_false e h] at hdirty
        cases hdirty

/-- Invariant: a reachable dirty engine has a live draft. -/
theorem reach_dirty_draft (e : Engine) (h : Reachable e) :
    e.isDirty = true → e.draft ≠ none := by
  induction h with
  | init s =>
    intro hd
    cases hd
  | step e' op _ ih => exact step_dirty_draft e' op ih

theorem subDraftE_fields (e : Engine) :
    (subDraftE e).source = e.source ∧ (subDraftE e).pendingCount = e.pendingCount ∧
    (subDraftE e).isDirty = e.isDirty := by
  unfold subDraftE
  split_ifs <;> exact ⟨rfl, rfl, rfl⟩

theorem writeDraft_fields (x : Engine) (g : Value → Option Value) (p : List PKey) :
    (writeDraft x g p).source = x.source ∧ (writeDraft x g p).pendingCount = x.pendingCount ∧
    (writeDraft x g p).isDirty = x.isDirty := by
  unfold writeDraft
  split
  · split <;> exact ⟨rfl, rfl, rfl⟩
  · exact ⟨rfl, rfl, rfl⟩

theorem mutTrap_no_emit (e : Engine) (op : EngOp) (hmut : isMutTrap op = true) :
    (stepE e op).2 = [] := by
  cases op <;> simp only [isMutTrap] at hmut <;>
    first
      | (simp only [stepE]; split_ifs <;> rfl)
      | exact absurd hmut (by simp)

theorem mutTrap_source (e : Engine) (op : EngOp) (hmut : isMutTrap op = true) :
    (stepE e op).1.source = e.source := by
  cases op <;> simp only [isMutTrap] at hmut <;>
    first
      | (simp only [stepE]; split_ifs with ho
         · first
            | exact ((dye_effect _).2.2.1).trans
                (((writeDraft_fields (subDraftE e) _ _).1).trans (subDraftE_fields e).1)
            | exact ((dye_effect _).2.2.1).trans (subDraftE_fields e).1
         · rfl)
      | exact absurd hmut (by simp)

theorem mutTrap_absorbed (e : Engine) (op : EngOp) (hmut : isMutTrap op = true)
    (hp : e.pendingCount ≠ 0) : (stepE e op).1.pendingCount = e.pendingCount := by
  have hdye : ∀ x : Engine, x.pendingCount = e.pendingCount →
      (dye x).pendingCount = e.pendingCount := by
    intro x hx
    unfold dye schedulerDefault
    rw [← hx] at hp
    simp only [ne_eq]
    rw [if_pos (by simpa using hp)]
    exact hx
  cases op <;> simp only [isMutTrap] at hmut <;>
    first
      | (simp only [stepE]; split_ifs with ho
         · first
            | exact hdye _
                (((writeDraft_fields (subDraftE e) _ _).2.1).trans (subDraftE_fields e).2.1)
            | exact hdye _ (subDraftE_fields e).2.1
         · rfl)
      | exact absurd hmut (by simp)

/-- C6: under the default scheduler at most one pending commit exists at any
reachable state; the first mutation in a quiescent period schedules exactly one
deferred commit; further mutations emit nothing, do not touch the snapshot, and
do not schedule another commit while one is pending; and the scheduled commit
fires at most one listener call whose patch pair is the whole diff of the
snapshot against the accumulated draft. -/
theorem scheduler_micro_batch :
    (∀ e : Engine, Reachable e → e.pendingCount ≤ 1) ∧
    (∀ (e : Engine) (p : List PKey) (k : PKey) (w : Value),
      e.pendingCount = 0 → isObjectish e.source = true →
      (stepE e (.write p k w)).1.pendingCount = 1) ∧
    (∀ (e : Engine) (op : EngOp), isMutTrap op = true →
      (stepE e op).2 = [] ∧ (stepE e op).1.source = e.source) ∧
    (∀ (e : Engine) (op : EngOp), isMutTrap op = true → e.pendingCount ≠ 0 →
      (stepE e op).1.pendingCount = e.pendingCount) ∧
    (∀ e : Engine, (stepE e .fire).2.length ≤ 1 ∧
      ∀ em ∈ (stepE e .fire).2,
        em.patches = (commitDiff e).1 ∧ em.inversePatches = (commitDiff e).2) := by
  refine ⟨reach_pending_le_one, ?_, ?_, ?_, ?_⟩
  · intro e p k w hp ho
    simp only [stepE, if_pos ho]
    show (dye (writeDraft (subDraftE e) _ _)).pendingCount = 1
    have hpw : (writeDraft (subDraftE e) (fun c => reflectSet c k w) p).pendingCount = 0 :=
      ((writeDraft_fields (subDraftE e) _ _).2.1).trans
        (((subDraftE_fields e).2.1).trans hp)
    unfold dye schedulerDefault
    simp [hpw]
  · intro e op hmut
    exact ⟨mutTrap_no_emit e op hmut, mutTrap_source e op hmut⟩
  · exact mutTrap_absorbed
  · intro e
    constructor
    · simp only [stepE]
      split_ifs with hp
      · simp
      · show (commitE e).2.length ≤ 1
        cases hd : e.draft with
        | none => simp [commitE, hd]
        | some d =>
          cases hdirty : e.isDirty with
          | false => simp [commitE, hd, hdirty]
          | true =>
            simp only [commitE, hd, hdirty]
            split_ifs <;> simp
    · intro em hem
      simp only [stepE] at hem
      split_ifs at hem with hp
      · simp at hem
      · have hem' : em ∈ (commitE e).2 := hem
        cases hd : e.draft with
        | none => simp [commitE, hd] at hem'
        | some d =>
          cases hdirty : e.isDirty with
          | false => simp [commitE, hd, hdirty] at hem'
          | true =>
            simp only [commitE, hd, hdirty, if_pos] at hem'
            split_ifs at hem' with hnil
            · simp at hem'
            · rw [List.mem_singleton.mp hem']
              exact ⟨rfl, rfl⟩

/-- C3 (amended): the dirty flag is false on creation, becomes true on any
intercepted write (set, deleteProperty, defineProperty, setPrototypeOf,
preventExtensions), and becomes false only through a commit-performing operation
(commit, the scheduled commit, patchState) or through a root replacement
(Handle.value = newRoot), which discards the pending draft and clears the flag
as part of emitting the root-replace pair. -/
theorem dirty_flag_lifecycle :
    (∀ s : Option Value, (undou s).isDirty = false) ∧
    (∀ (e : Engine) (op : EngOp), isMutTrap op = true → isObjectish e.source = true →
      (stepE e op).1.isDirty = true) ∧
    (∀ (e : Engine) (op : EngOp), e.isDirty = true → (stepE e op).1.isDirty = false →
      isCommitLike op = true ∨ ∃ v, op = EngOp.setValue v) := by
  refine ⟨fun s => rfl, ?_, ?_⟩
  · intro e op hmut hobj
    cases op <;> simp only [isMutTrap] at hmut <;>
      first
        | (simp only [stepE, if_pos hobj]; exact dye_isDirty _)
        | exact absurd hmut (by simp)
  · intro e op hdirty hclear
    cases op with
    | readValue =>
      exfalso
      have h1 : (readValueE e).isDirty = e.isDirty := by
        unfold readValueE
        split_ifs <;> rfl
      have : (stepE e .readValue).1.isDirty = e.isDirty := h1
      rw [this, hdirty] at hclear
      cases hclear
    | readTrap =>
      exfalso
      have : (stepE e .readTrap).1.isDirty = e.isDirty := (subDraftE_fields e).2.2
      rw [this, hdirty] at hclear
      cases hclear
    | write p k w =>
      exfalso
      have : (stepE e (.write p k w)).1.isDirty = true ∨
          (stepE e (.write p k w)).1.isDirty = e.isDirty := by
        simp only [stepE]
        split_ifs
        · exact Or.inl (dye_isDirty _)
        · exact Or.inr rfl
      rcases this with h | h <;> rw [h] at hclear
      · cases hclear
      · rw [hdirty] at hclear; cases hclear
    | del p k =>
      exfalso
      have : (stepE e (.del p k)).1.isDirty = true ∨
          (stepE e (.del p k)).1.isDirty = e.isDirty := by
        simp only [stepE]
        split_ifs
        · exact Or.inl (dye_isDirty _)
        · exact Or.inr rfl
      rcases this with h | h <;> rw [h] at hclear
      · cases hclear
      · rw [hdirty] at hclear; cases hclear
    | defineProp p k w =>
      exfalso
      have : (stepE e (.defineProp p k w)).1.isDirty = true ∨
          (stepE e (.defineProp p k w)).1.isDirty = e.isDirty := by
        simp only [stepE]
        split_ifs
        · exact Or.inl (dye_isDirty _)
        · exact Or.inr rfl
      rcases this with h | h <;> rw [h] at hclear
      · cases hclear
      · rw [hdirty] at hclear; cases hclear
    | setProto =>
      exfalso
      have : (stepE e .setProto).1.isDirty = true ∨
          (stepE e .setProto).1.isDirty = e.isDirty := by
        simp only [stepE]
        split_ifs
        · exact Or.inl (dye_isDirty _)
        · exact Or.inr rfl
      rcases this with h | h <;> rw [h] at hclear
      · cases hclear
      · rw [hdirty] at hclear; cases hclear
    | preventExt =>
      exfalso
      have : (stepE e .preventExt).1.isDirty = true ∨
          (stepE e .preventExt).1.isDirty = e.isDirty := by
        simp only [stepE]
        split_ifs
        · exact Or.inl (dye_isDirty _)
        · exact Or.inr rfl
      rcases this with h | h <;> rw [h] at hclear
      · cases hclear
      · rw [hdirty] at hclear; cases hclear
    | commitOp => exact Or.inl rfl
    | fire => exact Or.inl rfl
    | setValue v => exact Or.inr ⟨v, rfl⟩
    | applyPatchesOp ps => exact Or.inl rfl

/-- C3 counterexample: the claim as stated is false. On the reachable dirty
engine c3Dirty, the root assignment .value := some (str x) clears the dirty flag
although it is not a commit-performing operation. -/
theorem dirty_cleared_without_commit : ¬ DirtyOnlyClearedByCommit := by
  intro h
  have hreach : Reachable c3Dirty :=
    Reachable.step c3Base (.write [] (.str "foo") (.int 2)) (Reachable.init _)
  have hres := h c3Dirty (.setValue (some (.str "x"))) hreach (by decide) (by decide)
  simp [isCommitLike] at hres

/-- A throwing listener during a dirty commit with a non-empty diff aborts
commit() with the engine unchanged. -/
theorem commitWith_raised (e : Engine) (d : Value)
    (hd : e.draft = some d) (hdirty : e.isDirty = true)
    (hne : ¬((commitDiff e).1 = [] ∧ (commitDiff e).2 = [])) :
    commitWith e true = .raised e ⟨(commitDiff e).1, (commitDiff e).2⟩ := by
  unfold commitWith
  rw [hd]
  simp only [hdirty, if_true]
  rw [if_neg hne]

/-- A normally-returning listener during a dirty commit with a non-empty diff
completes the bookkeeping updates and receives the diff pair. -/
theorem commitWith_completed (e : Engine) (d : Value)
    (hd : e.draft = some d) (hdirty : e.isDirty = true)
    (hne : ¬((commitDiff e).1 = [] ∧ (commitDiff e).2 = [])) :
    commitWith e false = .completed
      { clearDraftCache (setSource e (some d)) with isDirty := false }
      (some ⟨(commitDiff e).1, (commitDiff e).2⟩) := by
  unfold commitWith
  rw [hd]
  simp only [hdirty, if_true]
  rw [if_neg hne]
  rfl

/-- The commit diff of the dirty engine c1Dirty is the single foo replace pair. -/
theorem c1Dirty_diff : commitDiff c1Dirty =
    ([⟨.replace, [.str "foo"], some (.int 2)⟩],
     [⟨.replace, [.str "foo"], some (.int 1)⟩]) := by
  show diffV (.obj [("foo", .int 1)]) (.obj [("foo", .int 2)]) = _
  simp [diffV, diffGo, consPath]

/-- C1: the claim is contradicted by the code. commit() runs
setSource(finishDraft(draft, patchListener)); the listener is invoked inside
finishDraft, before setSource, clearDraftCache and the isDirty reset execute.
On the dirty engine c1Dirty a throwing listener receives the patch pair while
the engine still has isDirty = true and the old draft pointer, and the
exception leaves the engine in exactly that state, so a later commit
re-emits the same pair (the code, not the claim). -/
theorem commit_listener_throw_leaves_dirty :
    c1Dirty.isDirty = true ∧
    c1Dirty.draft = some (.obj [("foo", .int 2)]) ∧
    commitWith c1Dirty true = .raised c1Dirty
      ⟨[⟨.replace, [.str "foo"], some (.int 2)⟩],
       [⟨.replace, [.str "foo"], some (.int 1)⟩]⟩ ∧
    commitWith c1Dirty false = .completed
      { source := some (.obj [("foo", .int 2)]), draft := none, draftCacheKey := 2,
        pendingCount := 1, isDirty := false, proxValid := false }
      (some ⟨[⟨.replace, [.str "foo"], some (.int 2)⟩],
             [⟨.replace, [.str "foo"], some (.int 1)⟩]⟩) := by
  refine ⟨by decide, by decide, ?_, ?_⟩
  · rw [commitWith_raised c1Dirty (.obj [("foo", .int 2)]) (by decide) (by decide)
      (by rw [c1Dirty_diff]; simp), c1Dirty_diff]
  · rw [commitWith_completed c1Dirty (.obj [("foo", .int 2)]) (by decide) (by decide)
      (by rw [c1Dirty_diff]; simp), c1Dirty_diff]
    rfl

/-- Witness: the hypotheses of commit_roundtrip hold at a concrete input and the theorem
applies there. -/
theorem commit_roundtrip_witness :
    exEngine.source = some exS ∧ exEngine.draft = some exD ∧ exEngine.isDirty = true ∧
    wf exS = true ∧ wf exD = true ∧
    ((commitE exEngine).1.source = some exD ∧
     applyPatches (some exS) (commitDiff exEngine).1 = some (some exD) ∧
     applyPatches (some exD) (commitDiff exEngine).2 = some (some exS)) :=
  ⟨rfl, rfl, rfl, by decide, by decide,
   commit_roundtrip exEngine exS exD rfl rfl rfl (by decide) (by decide)⟩

/-- Witness: the hypotheses of commit_listener_iff hold at a concrete input and the theorem
applies there. -/
theorem commit_listener_iff_witness :
    exEngine.source = some exS ∧ exEngine.draft = some exD ∧ exEngine.isDirty = true ∧
    (((commitE exEngine).2 = [] ↔
        (commitDiff exEngine).1 = [] ∧ (commitDiff exEngine).2 = []) ∧
     (exD = exS → commitDiff exEngine = ([], []) ∧ (commitE exEngine).2 = []) ∧
     ((commitDiff exEngine).1 ≠ [] →
        (commitE exEngine).2 = [⟨(commitDiff exEngine).1, (commitDiff exEngine).2⟩]) ∧
     (commitE exEngine).2.length ≤ 1) :=
  ⟨rfl, rfl, rfl, commit_listener_iff exEngine exS exD rfl rfl rfl⟩

/-- Witness: the hypotheses of patchState_spec hold at a concrete input and the theorem
applies there. -/
theorem patchState_spec_witness :
    ((undou (some (.str "foo"))).isDirty = true → (undou (some (.str "foo"))).draft ≠ none) ∧
    applyPatches (commitE (undou (some (.str "foo")))).1.source
      [⟨.replace, [], some (.str "bar")⟩] = some (some (.str "bar")) ∧
    (patchState (undou (some (.str "foo"))) [⟨.replace, [], some (.str "bar")⟩] =
       some (setStateSource (commitE (undou (some (.str "foo")))).1 (some (.str "bar")),
             (commitE (undou (some (.str "foo")))).2) ∧
     (setStateSource (commitE (undou (some (.str "foo")))).1 (some (.str "bar"))).source =
       some (.str "bar") ∧
     (setStateSource (commitE (undou (some (.str "foo")))).1 (some (.str "bar"))).draft = none ∧
     (setStateSource (commitE (undou (some (.str "foo")))).1 (some (.str "bar"))).isDirty = false ∧
     (setStateSource (commitE (undou (some (.str "foo")))).1
        (some (.str "bar"))).draftCacheKey =
       (commitE (undou (some (.str "foo")))).1.draftCacheKey + 1 ∧
     currentView (setStateSource (commitE (undou (some (.str "foo")))).1 (some (.str "bar"))) =
       some (.str "bar")) :=
  ⟨by decide, by decide,
   patchState_spec (undou (some (.str "foo"))) [⟨.replace, [], some (.str "bar")⟩]
     (some (.str "bar")) (by decide) (by decide)⟩

/-- Witness: the hypotheses of scheduler_micro_batch hold at a concrete input and the theorem
applies there. -/
theorem scheduler_micro_batch_witness :
    c3Dirty.pendingCount ≤ 1 ∧
    (stepE c3Base (.write [] (.str "foo") (.int 2))).1.pendingCount = 1 ∧
    (stepE c3Dirty (.write [] (.str "foo") (.int 3))).2 = [] ∧
    (stepE c3Dirty (.write [] (.str "foo") (.int 3))).1.pendingCount = c3Dirty.pendingCount :=
  ⟨scheduler_micro_batch.1 c3Dirty
     (Reachable.step c3Base (.write [] (.str "foo") (.int 2)) (Reachable.init _)),
   scheduler_micro_batch.2.1 c3Base [] (.str "foo") (.int 2) rfl (by decide),
   (scheduler_micro_batch.2.2.1 c3Dirty (.write [] (.str "foo") (.int 3)) rfl).1,
   scheduler_micro_batch.2.2.2.1 c3Dirty (.write [] (.str "foo") (.int 3)) rfl (by decide)⟩

/-- Witness: the hypotheses of fork_independent hold at a concrete input and the theorem
applies there. -/
theorem fork_independent_witness :
    (∀ o ∈ [Sum.inl (α := EngOp) (β := EngOp) EngOp.readValue], o.isLeft = true) ∧
    (runWorld ((commitE c3Dirty).1, (forkState c3Dirty).2)
      [Sum.inl EngOp.readValue]).2 = (forkState c3Dirty).2 :=
  ⟨by simp,
   (fork_independent c3Dirty).2.2.2.2.2.2.2.1 [Sum.inl EngOp.readValue] (by simp)⟩

/-- Witness: the hypotheses of read_write_effects hold at a concrete input and the theorem
applies there. -/
theorem read_write_effects_witness :
    isMutTrap (.write [] (.str "foo") (.int 2)) = true ∧
    isObjectish c3Base.source = true ∧
    ((stepE c3Base (.write [] (.str "foo") (.int 2))).1.isDirty = true ∧
     1 ≤ (stepE c3Base (.write [] (.str "foo") (.int 2))).1.pendingCount) :=
  ⟨rfl, by decide,
   (read_write_effects c3Base).2.2 (.write [] (.str "foo") (.int 2)) rfl (by decide)⟩

/-- Witness: the hypotheses of dirty_flag_lifecycle hold at a concrete input and the theorem
applies there. -/
theorem dirty_flag_lifecycle_witness :
    (undou (some (.str "s"))).isDirty = false ∧
    (stepE c3Base (.write [] (.str "foo") (.int 2))).1.isDirty = true ∧
    (isCommitLike (EngOp.setValue (some (.str "x"))) = true ∨
      ∃ v, EngOp.setValue (some (.str "x")) = EngOp.setValue v) :=
  ⟨dirty_flag_lifecycle.1 (some (.str "s")),
   dirty_flag_lifecycle.2.1 c3Base (.write [] (.str "foo") (.int 2)) rfl (by decide),
   dirty_flag_lifecycle.2.2 c3Dirty (EngOp.setValue (some (.str "x"))) (by decide) (by decide)⟩
